import Mathlib

/-!
# Verification of the `connections` connection-tableau prover

A shallow embedding, in Lean 4, of the parts of the `connections`
repository (a connection-calculus theorem prover) needed to settle the
frozen claims: the term language (`connections/utils/primitives.py`),
the union-find substitution with trailing
(`connections/utils/unification.py`), the matrix clause-copy machinery,
the prefix-unification procedures for the modal logic D
(`connections/utils/unification_d.py`) and for intuitionistic logic
(`connections/utils/unification_intu.py`), the start-action generation
and goal update of the SAT-variant classical engine
(`connections/calculi/classicalsat.py`), and the environment `step`
(`connections/env.py`).

Python's unbounded recursion and `while` loops are embedded as
fuel-indexed functions returning `Option`; `none` models
non-termination or a crash (e.g. `RecursionError`).  Mutable state
(the substitution's `parent` dict and `trail` list) is threaded
explicitly.
-/

set_option maxHeartbeats 1000000

namespace Connections

/-- Terms of `connections.utils.primitives`: a `Variable` carries a
symbol and a `copy_num`; `Constant` and `Function` both carry a symbol,
an argument list and an optional prefix.  Lean models both by `func`:
equality, `find`, `union`, `occurs_check` and `copy` treat them
identically, and in the prefix-unification modules, whose guards test
`isinstance(·, Function)`, the prefix sequences consist of `Variable`s
and `"string"`-headed `Function` terms (§4.5 of the specification), so
on that fragment too `func` stands for `Function`.  `Variable.args` is
always empty in matrices produced by the parsers, so the embedding
drops it. -/
inductive PTerm where
  | var (symbol : String) (copyNum : Nat)
  | func (symbol : String) (args : List PTerm) (pfx : Option PTerm)

namespace PTerm

def beqT : PTerm → PTerm → Bool
  | var s c, var t d => s == t && c == d
  | func f as p, func g bs q =>
      f == g && beqList as bs && beqOpt p q
  | _, _ => false
where
  beqList : List PTerm → List PTerm → Bool
    | [], [] => true
    | a :: as, b :: bs => beqT a b && beqList as bs
    | _, _ => false
  beqOpt : Option PTerm → Option PTerm → Bool
    | none, none => true
    | some a, some b => beqT a b
    | _, _ => false

instance : BEq PTerm := ⟨beqT⟩

mutual

def beqT_refl : ∀ t : PTerm, beqT t t = true
  | var _ _ => by simp [beqT]
  | func _ as p => by simp [beqT, beqList_refl as, beqOpt_refl p]

def beqList_refl : ∀ ts : List PTerm, beqT.beqList ts ts = true
  | [] => by simp [beqT.beqList]
  | a :: as => by simp [beqT.beqList, beqT_refl a, beqList_refl as]

def beqOpt_refl : ∀ o : Option PTerm, beqT.beqOpt o o = true
  | none => by simp [beqT.beqOpt]
  | some a => by simp [beqT.beqOpt, beqT_refl a]

end

mutual

def beqT_eq : ∀ s t : PTerm, beqT s t = true → s = t
  | var _ _, var _ _ => by simp [beqT]
  | var _ _, func _ _ _ => by simp [beqT]
  | func _ _ _, var _ _ => by simp [beqT]
  | func _ as p, func _ bs q => by
      simp [beqT]
      intro h1 h2 h3
      exact ⟨h1, beqList_eq as bs h2, beqOpt_eq p q h3⟩

def beqList_eq : ∀ ss ts : List PTerm, beqT.beqList ss ts = true → ss = ts
  | [], [] => by simp
  | [], _ :: _ => by simp [beqT.beqList]
  | _ :: _, [] => by simp [beqT.beqList]
  | s :: ss, t :: ts => by
      simp [beqT.beqList]
      intro h1 h2
      exact ⟨beqT_eq s t h1, beqList_eq ss ts h2⟩

def beqOpt_eq : ∀ os ot : Option PTerm, beqT.beqOpt os ot = true → os = ot
  | none, none => by simp
  | none, some _ => by simp [beqT.beqOpt]
  | some _, none => by simp [beqT.beqOpt]
  | some s, some t => by simpa [beqT.beqOpt] using beqT_eq s t

end

instance : LawfulBEq PTerm where
  rfl := beqT_refl _
  eq_of_beq h := beqT_eq _ _ h

instance : DecidableEq PTerm := fun s t =>
  if h : beqT s t = true then .isTrue (beqT_eq _ _ h)
  else .isFalse (fun he => h (he ▸ beqT_refl s))

/-- Python `__eq__` on expressions: symbols and argument lists must
match, the `prefix` field is excluded; two `Variable`s additionally
compare `copy_num`.  A `Variable` never equals a `Function`/`Constant`
here (in the prover their symbol alphabets are disjoint, and Python
would raise `AttributeError` on such a comparison). -/
def peq : PTerm → PTerm → Bool
  | var s c, var t d => s == t && c == d
  | func f as _, func g bs _ => f == g && peqList as bs
  | _, _ => false
where
  peqList : List PTerm → List PTerm → Bool
    | [], [] => true
    | a :: as, b :: bs => peq a b && peqList as bs
    | _, _ => false

/-- The `symbol` attribute. -/
def symbol : PTerm → String
  | var s _ => s
  | func s _ _ => s

/-- The `args` attribute (empty for variables). -/
def args : PTerm → List PTerm
  | var _ _ => []
  | func _ as _ => as

/-- The `prefix` attribute (`None` for variables as constructed by the
parsers). -/
def pfx? : PTerm → Option PTerm
  | var _ _ => none
  | func _ _ p => p

def isVar : PTerm → Bool
  | var _ _ => true
  | _ => false

def isFunc : PTerm → Bool
  | func _ _ _ => true
  | _ => false

mutual

def peq_refl : ∀ t : PTerm, peq t t = true
  | var _ _ => by simp [peq]
  | func _ as _ => by simp [peq, peqList_refl as]

def peqList_refl : ∀ ts : List PTerm, peq.peqList ts ts = true
  | [] => by simp [peq.peqList]
  | a :: as => by simp [peq.peqList, peq_refl a, peqList_refl as]

end

/-- Python equality on variables coincides with structural equality in
this embedding (variables carry no prefix). -/
def peq_var_iff {s t : String} {c d : Nat} :
    peq (var s c) (var t d) = true ↔ s = t ∧ c = d := by
  simp [peq]

end PTerm

/-- A variable's identity: its `(symbol, copy_num)` pair, the key of
the `parent` dict (Python hashes `Variable`s by exactly this pair). -/
abbrev VKey := String × Nat

def PTerm.key : PTerm → Option VKey
  | .var s c => some (s, c)
  | .func _ _ _ => none

/-- The `parent` dict of `Substitution`: an insertion-ordered
association list, as Python dicts are. -/
abbrev Parent := List (VKey × PTerm)

/-- Python `item in self.parent` / `self.parent[item]`. -/
def lookupP (p : Parent) (k : VKey) : Option PTerm :=
  match p with
  | [] => none
  | (k', v) :: rest => if k' = k then some v else lookupP rest k

/-- Python `self.parent[item] = v`: replace in place when the key is
present (dicts keep insertion order), append otherwise. -/
def insertP (p : Parent) (k : VKey) (v : PTerm) : Parent :=
  match p with
  | [] => [(k, v)]
  | (k', v') :: rest =>
      if k' = k then (k', v) :: rest else (k', v') :: insertP rest k v

/-- Python `del self.parent[var]`. -/
def eraseP (p : Parent) (k : VKey) : Parent :=
  match p with
  | [] => []
  | (k', v') :: rest =>
      if k' = k then rest else (k', v') :: eraseP rest k

/-- One entry of a trail frame (`unification.py`): either a bare
`Variable` recording a first-time insertion, or a triple
`(var, old, new)` recording a rewritten parent link. -/
inductive Entry where
  | ins (v : VKey)
  | set (v : VKey) (old new : PTerm)
deriving DecidableEq

/-- The `Substitution` state: the `parent` dict and the `trail`.
The trail's top frame is at the head (Python appends frames at the end
and works on `trail[-1]`); each frame keeps its entries in
chronological order, as in Python. -/
structure Sub where
  parent : Parent
  trail : List (List Entry)
deriving DecidableEq

def Sub.empty : Sub := ⟨[], []⟩

/-- `if not self.trail: self.trail.append([]); self.trail[-1].append(e)` -/
def recordEntry (σ : Sub) (e : Entry) : Sub :=
  match σ.trail with
  | [] => { σ with trail := [[e]] }
  | f :: rest => { σ with trail := (f ++ [e]) :: rest }

/-- Undo one trail entry (`Substitution.backtrack` body). -/
def undoEntry (p : Parent) : Entry → Parent
  | .ins v => eraseP p v
  | .set v old _ => insertP p v old

/-- Undo a frame's entries in reverse order. -/
def undoFrame (f : List Entry) (p : Parent) : Parent :=
  f.foldr (fun e q => undoEntry q e) p

/-- `Substitution.backtrack`: pop the top frame and undo it; `none`
models the `IndexError` of popping an empty trail. -/
def Sub.backtrack (σ : Sub) : Option Sub :=
  match σ.trail with
  | [] => none
  | f :: rest => some ⟨undoFrame f σ.parent, rest⟩

/-- Redo one trail entry (`Substitution.update` body: a bare variable
re-inserts the identity mapping, a triple re-applies the new value). -/
def redoEntry (p : Parent) : Entry → Parent
  | .ins v => insertP p v (.var v.1 v.2)
  | .set v _ new => insertP p v new

/-- `Substitution.update`: push the given frame and re-apply its
entries in order. -/
def Sub.update (σ : Sub) (f : List Entry) : Sub :=
  ⟨f.foldl redoEntry σ.parent, f :: σ.trail⟩

/-- `Substitution.find(item, add)`, fuel-indexed.  A non-`Variable` is
returned unchanged.  An unmapped variable is returned as is when
`¬add`, and inserted as its own parent (recording a bare-variable
trail entry) when `add`.  A mapped variable whose value is not itself
is resolved recursively with path compression; a rewritten link is
recorded as a `(item, old, new)` triple when the value changed
(Python `!=`, i.e. `peq`). -/
def findF : Nat → Sub → PTerm → Bool → Option (PTerm × Sub)
  | 0, _, _, _ => none
  | _ + 1, σ, .func f as p, _ => some (.func f as p, σ)
  | n + 1, σ, .var s c, add =>
      let k : VKey := (s, c)
      match lookupP σ.parent k with
      | none =>
          if add then
            let σ₁ := recordEntry σ (.ins k)
            some (.var s c, { σ₁ with parent := σ₁.parent ++ [(k, .var s c)] })
          else some (.var s c, σ)
      | some pt =>
          if PTerm.peq pt (.var s c) then some (pt, σ)
          else
            match findF n σ pt add with
            | none => none
            | some (r, σ₁) =>
                let σ₂ : Sub := { σ₁ with parent := insertP σ₁.parent k r }
                if PTerm.peq pt r then some (r, σ₂)
                else some (r, recordEntry σ₂ (.set k pt r))

mutual

/-- `Substitution.occurs_check(var, term)`: find `term`'s
representative without adding; `var` occurs iff it equals the
representative or occurs in one of its arguments (short-circuiting, as
Python's `any`). -/
def occursCheckF : Nat → Sub → PTerm → PTerm → Option (Bool × Sub)
  | 0, _, _, _ => none
  | n + 1, σ, v, term =>
      match findF n σ term false with
      | none => none
      | some (root, σ₁) =>
          if PTerm.peq v root then some (true, σ₁)
          else occursAnyF n σ₁ v root.args

def occursAnyF : Nat → Sub → PTerm → List PTerm → Option (Bool × Sub)
  | 0, _, _, _ => none
  | _ + 1, σ, _, [] => some (false, σ)
  | n + 1, σ, v, a :: as =>
      match occursCheckF n σ v a with
      | none => none
      | some (true, σ₁) => some (true, σ₁)
      | some (false, σ₁) => occursAnyF n σ₁ v as

end


/-- The `while equations:` loop of `Substitution.union`.  The worklist
is kept with Python's `equations.pop()` element (the most recently
appended) at the head, so pushing the zipped argument pairs prepends
them in reverse. -/
def unionLoop : Nat → Sub → List (PTerm × PTerm) → Option (Bool × Sub)
  | 0, _, _ => none
  | _ + 1, σ, [] => some (true, σ)
  | n + 1, σ, (s, t) :: rest =>
      match findF n σ s true with
      | none => none
      | some (s', σ₁) =>
          match findF n σ₁ t true with
          | none => none
          | some (t', σ₂) =>
              if PTerm.peq s' t' then unionLoop n σ₂ rest
              else
                match s', t' with
                | .var a b, _ =>
                    match occursCheckF n σ₂ s' t' with
                    | none => none
                    | some (true, σ₃) => some (false, σ₃)
                    | some (false, σ₃) =>
                        match lookupP σ₃.parent (a, b) with
                        | none => none
                        | some old =>
                            let σ₄ := recordEntry σ₃ (.set (a, b) old t')
                            unionLoop n
                              { σ₄ with parent := insertP σ₄.parent (a, b) t' }
                              rest
                | .func _ _ _, .var a b =>
                    match occursCheckF n σ₂ t' s' with
                    | none => none
                    | some (true, σ₃) => some (false, σ₃)
                    | some (false, σ₃) =>
                        match lookupP σ₃.parent (a, b) with
                        | none => none
                        | some old =>
                            let σ₄ := recordEntry σ₃ (.set (a, b) old s')
                            unionLoop n
                              { σ₄ with parent := insertP σ₄.parent (a, b) s' }
                              rest
                | .func f as _, .func g bs _ =>
                    if f ≠ g ∨ as.length ≠ bs.length then some (false, σ₂)
                    else unionLoop n σ₂ ((as.zip bs).reverse ++ rest)

/-- `Substitution.union(s, t)`: push a fresh trail frame, then run the
worklist loop. -/
def Sub.union (fuel : Nat) (σ : Sub) (s t : PTerm) : Option (Bool × Sub) :=
  unionLoop fuel { σ with trail := [] :: σ.trail } [(s, t)]

/-- `Substitution.unify(s, t)`: run `union` and return the outcome
together with the top trail frame. -/
def Sub.unify (fuel : Nat) (σ : Sub) (s t : PTerm) :
    Option (Bool × List Entry × Sub) :=
  match Sub.union fuel σ s t with
  | none => none
  | some (b, σ') => some (b, σ'.trail.headD [], σ')

/-- `Substitution.can_unify(s, t)`: `unify`, capture the frame, then
`backtrack`. -/
def Sub.canUnify (fuel : Nat) (σ : Sub) (s t : PTerm) :
    Option (Bool × List Entry × Sub) :=
  match Sub.unify fuel σ s t with
  | none => none
  | some (b, f, σ') =>
      match σ'.backtrack with
      | none => none
      | some σ'' => some (b, f, σ'')

mutual

/-- `Substitution.equal(s, t)`: structural equality modulo the current
substitution.  Both roots are taken with `find(·, add=False)`; note
that in the source every term object—`Variable`s included—is an
`Expression`, so the symbol/arity/arguments comparison applies to
variable roots as well. -/
def equalF : Nat → Sub → PTerm → PTerm → Option (Bool × Sub)
  | 0, _, _, _ => none
  | n + 1, σ, s, t =>
      match findF n σ s false with
      | none => none
      | some (s', σ₁) =>
          match findF n σ₁ t false with
          | none => none
          | some (t', σ₂) =>
              if PTerm.peq s' t' then some (true, σ₂)
              else if s'.symbol == t'.symbol
                  && s'.args.length == t'.args.length then
                equalAllF n σ₂ (s'.args.zip t'.args)
              else some (false, σ₂)

def equalAllF : Nat → Sub → List (PTerm × PTerm) → Option (Bool × Sub)
  | 0, _, _ => none
  | _ + 1, σ, [] => some (true, σ)
  | n + 1, σ, (a, b) :: rest =>
      match equalF n σ a b with
      | none => none
      | some (false, σ₁) => some (false, σ₁)
      | some (true, σ₁) => equalAllF n σ₁ rest

end


mutual

/-- `Substitution.__call__(term)`: replace each variable by its
representative, rebuilding compound terms recursively (the `prefix`
field is carried over unapplied, as in the source). -/
def applyF : Nat → Sub → PTerm → Option (PTerm × Sub)
  | 0, _, _ => none
  | n + 1, σ, t =>
      match findF n σ t false with
      | none => none
      | some (root, σ₁) =>
          match root with
          | .var s c => some (.var s c, σ₁)
          | .func f as p =>
              match applyListF n σ₁ as with
              | none => none
              | some (as', σ₂) => some (.func f as' p, σ₂)

def applyListF : Nat → Sub → List PTerm → Option (List PTerm × Sub)
  | 0, _, _ => none
  | _ + 1, σ, [] => some ([], σ)
  | n + 1, σ, a :: as =>
      match applyF n σ a with
      | none => none
      | some (a', σ₁) =>
          match applyListF n σ₁ as with
          | none => none
          | some (as', σ₂) => some (a' :: as', σ₂)

end


/-! ## Literals, the matrix, and clause copying
(`connections/utils/primitives.py`) -/

/-- `Term.copy(num)` / `Variable.copy(num)`: rebuild the term with
every variable's `copy_num` set to `num`; the prefix is copied too. -/
def PTerm.copyT (num : Nat) : PTerm → PTerm
  | .var s _ => .var s num
  | .func f as p => .func f (copyList num as) (copyOpt num p)
where
  copyList (num : Nat) : List PTerm → List PTerm
    | [] => []
    | a :: as => copyT num a :: copyList num as
  copyOpt (num : Nat) : Option PTerm → Option PTerm
    | none => none
    | some a => some (copyT num a)

/-- `Literal`: predicate symbol, arguments, optional prefix, polarity,
and home position in the matrix. -/
structure Lit where
  symbol : String
  args : List PTerm
  pfx : Option PTerm
  neg : Bool
  matrixPos : Option (Nat × Nat)
deriving DecidableEq

/-- `Literal.copy(num)`. -/
def Lit.copy (num : Nat) (l : Lit) : Lit :=
  { l with args := PTerm.copyT.copyList num l.args,
           pfx := PTerm.copyT.copyOpt num l.pfx }

/-- The `Matrix`: the clause list and the fresh-copy counter `index`
(the other fields of `Matrix` are derived indices). -/
structure Matrix where
  clauses : List (List Lit)
  index : Nat
deriving DecidableEq

/-- `Matrix._update_mappings`'s `positive_clauses`: indices of clauses
with no negated literal, in clause order. -/
def Matrix.positiveClauses (m : Matrix) : List Nat :=
  (List.range m.clauses.length).filter
    fun i => (m.clauses.getD i []).all fun l => !l.neg

/-- `Matrix.copy(clause_idx)`: bump the counter, then copy every
literal of the clause with the new counter value. -/
def Matrix.copy (m : Matrix) (clauseIdx : Nat) : Matrix × List Lit :=
  ({ m with index := m.index + 1 },
    (m.clauses.getD clauseIdx []).map (Lit.copy (m.index + 1)))

/-- `Matrix.reset`. -/
def Matrix.resetM (m : Matrix) : Matrix := { m with index := 0 }

/-- The variable identities occurring in a term (symbol and copy
number — exactly what `Variable.__eq__` and `__hash__` compare). -/
def PTerm.varsT : PTerm → List VKey
  | .var s c => [(s, c)]
  | .func _ as p => varsList as ++ varsOpt p
where
  varsList : List PTerm → List VKey
    | [] => []
    | a :: as => varsT a ++ varsList as
  varsOpt : Option PTerm → List VKey
    | none => []
    | some a => varsT a

def Lit.vars (l : Lit) : List VKey :=
  PTerm.varsT.varsList l.args ++ PTerm.varsT.varsOpt l.pfx

def clauseVars (c : List Lit) : List VKey := c.flatMap Lit.vars

/-- The variable identities occurring anywhere in a matrix's clauses. -/
def matrixVars (m : Matrix) : List VKey := m.clauses.flatMap clauseVars

/-! ## The SAT-variant classical engine
(`connections/calculi/classicalsat.py`) -/

/-- The `Settings` dataclass of `connections/env.py` (the `logic` and
`domain` tags are irrelevant to the embedded fragment). -/
structure Settings where
  positiveStartClauses : Bool := true
  iterativeDeepening : Bool := false
  iterativeDeepeningInitialDepth : Nat := 1
  restrictedBacktracking : Bool := false
  backtrackAfter : Nat := 2
deriving DecidableEq

/-- The `Start` action dataclass: `clause_copy` defaults to `[]`
(`field(default_factory=lambda: [])`), and is `None` only if a caller
passes `None` explicitly — hence the `Option`. `sub_updates` defaults
to `[]`. -/
structure StartA where
  id : String
  clauseCopy : Option (List Lit) := some []
  subUpdates : List Entry := []
deriving DecidableEq

/-- Only the `Start` variant of `ConnectionAction` is embedded: the
claims' scenarios exercise start actions at the root; `Reduction`,
`Extension` and `Backtrack` carry tableau-node references and drive
the external SAT solver, outside the embedded fragment. -/
inductive SAction where
  | start (a : StartA)
deriving DecidableEq

/-- Modelled from the spec: the tableau node of §3/§4.3 — the module
`connections/utils/tableau.py` is imported by `classicalsat.py` but is
not among the sources.  Per the spec a node carries
`(literal, parent, children, depth, proven, num_attempted, actions)`;
the root has `literal = None`.  Parent links and `depth` are omitted:
the claims only manipulate the root. -/
inductive STab where
  | node (literal : Option Lit) (children : List STab) (proven : Bool)
      (numAttempted : Nat) (actions : List (String × SAction))

def STab.literal : STab → Option Lit
  | .node l _ _ _ _ => l

def STab.children : STab → List STab
  | .node _ c _ _ _ => c

def STab.proven : STab → Bool
  | .node _ _ p _ _ => p

def STab.numAttempted : STab → Nat
  | .node _ _ _ n _ => n

def STab.actions : STab → List (String × SAction)
  | .node _ _ _ _ a => a

/-- A fresh leaf `Tableau(lit, parent)` (spec defaults: not proven,
no attempts, no actions yet). -/
def STab.leaf (l : Lit) : STab := .node (some l) [] false 0 []

/-- A fresh root `Tableau()`. -/
def STab.root : STab := .node none [] false 0 []

def STab.withChildren : STab → List STab → STab
  | .node l _ p n a, c => .node l c p n a

def STab.withActions : STab → List (String × SAction) → STab
  | .node l c p n _, a => .node l c p n a

def STab.delAction (t : STab) (id : String) : STab :=
  t.withActions (t.actions.filter fun pr => pr.1 ≠ id)

def STab.bumpAttempts : STab → STab
  | .node l c p n a => .node l c p (n + 1) a

/-- Set a key of a Python string dict (replace in place or append). -/
def setKV (info : List (String × String)) (k v : String) :
    List (String × String) :=
  match info with
  | [] => [(k, v)]
  | (k', v') :: rest =>
      if k' = k then (k', v) :: rest else (k', v') :: setKV rest k v

/-- Read a key of a Python string dict. -/
def getKV (info : List (String × String)) (k : String) : Option String :=
  match info with
  | [] => none
  | (k', v') :: rest => if k' = k then some v' else getKV rest k

/-- `SATConnectionState`, restricted to the fields the claims touch
(the CaDiCaL/PySAT solver objects, atom maps and recorded ground
clauses are external state, out of the embedded fragment).  The
current `goal` is a reference into the tableau; in every claim
scenario it is the root, so actions are applied to `tableau`
directly. -/
structure SATState where
  matrix : Matrix
  substitution : Sub
  tableau : STab
  goalIsOpen : Bool
  maxDepth : Nat
  info : List (String × String)
  isTerminal : Bool
  proofSequence : List SAction
  settings : Settings

/-- `SATConnectionState.starts`.  `start_clause_candidates` begins as
`matrix.positive_clauses`; when `settings.positive_start_clauses` is
false the code reads `self.matrix.negative_clauses`, an attribute no
class defines, so Python raises `AttributeError` (modelled as
`.error`).  Each candidate is copied with a fresh counter value; if no
candidate produced a `Start`, a lone `Start(id="st0")` (with the
default empty `clause_copy`) is appended. -/
def startsE (m : Matrix) (psc : Bool) :
    Except String (List StartA × Matrix) :=
  if psc then
    let (acts, m') := startsLoop m 0 m.positiveClauses
    .ok (if acts.isEmpty then [{ id := "st0" }] else acts, m')
  else
    .error "AttributeError: 'Matrix' object has no attribute 'negative_clauses'"
where
  startsLoop (m : Matrix) (j : Nat) : List Nat → List StartA × Matrix
    | [] => ([], m)
    | ci :: rest =>
        let (m', copy) := m.copy ci
        let (acts, m'') := startsLoop m' (j + 1) rest
        ({ id := "st" ++ toString j, clauseCopy := some copy } :: acts, m'')

mutual

/-- Modelled from the spec: §4.3's goal traversal (`find_best` /
`find_next` live in the absent `tableau.py`).  It collects the open
(unproven, childless, non-root) descendants, of which the traversal
returns one, or `None` when there is none — upon which
`theorem_or_next` declares "Theorem".  The claims only exercise the
`None` case (a root with no children). -/
def openLeavesT : STab → List STab
  | .node l c p n a =>
      if p then []
      else if c.isEmpty then [STab.node l c p n a]
      else openLeavesL c

def openLeavesL : List STab → List STab
  | [] => []
  | t :: ts => openLeavesT t ++ openLeavesL ts

end


/-- `SATConnectionState.theorem_or_next`: move `goal` to the next open
leaf; if there is none, declare "Theorem" and stop.  (When a next goal
exists the engine recomputes its legal actions — reductions and
extensions against the solver — which no claim exercises; the embedded
state only records that the goal is open.) -/
def theoremOrNext (st : SATState) : SATState :=
  match openLeavesL st.tableau.children with
  | [] => { st with
      info := setKV st.info "status" "Theorem",
      isTerminal := true, goalIsOpen := false }
  | _ :: _ => { st with goalIsOpen := true }

/-- The `Start` branch of `SATConnectionState.update_goal`, applied at
the root goal: remove the action id, bump `num_attempted`, replay the
action's (empty) `sub_updates`, append to `proof_sequence`; then the
`if clause_copy is None` guard — note the lone empty start built by
`starts()` carries `[]`, not `None` — and otherwise open one child per
copied literal and call `theorem_or_next`. -/
def updateGoalStart (st : SATState) (a : StartA) : SATState :=
  let root0 := (st.tableau.delAction a.id).bumpAttempts
  let st1 : SATState := { st with
    tableau := root0,
    substitution := st.substitution.update a.subUpdates,
    proofSequence := st.proofSequence ++ [.start a] }
  match a.clauseCopy with
  | none => { st1 with
      info := setKV st1.info "status" "Non-Theorem: no positive start clauses",
      isTerminal := true }
  | some copy =>
      theoremOrNext { st1 with
        tableau := root0.withChildren (copy.map STab.leaf) }

/-- `SATConnectionState.reset(depth)`: rebuild the tableau with a
fresh root whose actions are the start actions (the goal is the root,
whose `legal_actions()` call runs `starts()`, further bumping the
matrix copy counter), clear `info`, `is_terminal` and
`proof_sequence`, and set `max_depth`.  The substitution and the
matrix counter are **not** reinitialised by this method. -/
def SATState.reset (st : SATState) (depth : Option Nat) :
    Except String SATState :=
  let md := depth.getD st.settings.iterativeDeepeningInitialDepth
  match startsE st.matrix st.settings.positiveStartClauses with
  | .error e => .error e
  | .ok (acts, m') =>
      .ok { st with
        maxDepth := md,
        matrix := m',
        tableau := STab.root.withActions
          (acts.map fun a => (a.id, SAction.start a)),
        goalIsOpen := true,
        info := [],
        isTerminal := false,
        proofSequence := [] }

/-- `ConnectionEnv.step` (`connections/env.py`): when the state is
already terminal, return it unchanged with reward 1; otherwise apply
`update_goal` (passed in as `upd`, standing for the logic-specific
state class dispatched at construction) and report the new state.  The
returned info dict is `{"status": state.info}`. -/
def envStep (upd : SATState → StartA → SATState) (st : SATState)
    (a : StartA) :
    SATState × Nat × Bool × List (String × List (String × String)) :=
  if st.isTerminal then
    (st, if st.isTerminal then 1 else 0, st.isTerminal,
      [("status", st.info)])
  else
    let st' := upd st a
    (st', if st'.isTerminal then 1 else 0, st'.isTerminal,
      [("status", st'.info)])

/-! ## Prefix unification
(`connections/utils/unification_d.py`, `unification_intu.py`) -/

mutual

/-- `flatten`: rebuild a term's argument list, expanding nested
`"string"` terms into their argument sequences. -/
def flattenT : PTerm → PTerm
  | .var s c => .var s c
  | .func f as p => .func f (flattenList as) p

/-- The loop shared by `flatten` and `flatten_list`: an element whose
symbol is `"string"` contributes its flattened arguments, any other
element is flattened and kept whole. -/
def flattenList : List PTerm → List PTerm
  | [] => []
  | t :: rest =>
      (if t.symbol = "string" then (flattenT t).args else [flattenT t])
        ++ flattenList rest

end


/-- The unification loop of D's `pre_unify`: each pair is fed to
`unify`; the first failure aborts with the source's `None` (outer
`none` is exhaustion of the step bound). -/
def unifyPairs (uf : Nat) (σ : Sub) :
    List (PTerm × PTerm) → Option (Option Sub)
  | [] => some (some σ)
  | (a, b) :: rest =>
      match Sub.unify uf σ a b with
      | none => none
      | some (true, _, σ₁) => unifyPairs uf σ₁ rest
      | some (false, _, _) => some none

/-- `pre_unify` for the modal logic D (`unification_d.py`): apply the
substitution to both prefix lists and flatten them; compare the
lengths of the two *unflattened* input lists; then unify the
flattened sequences pairwise, `zip` silently truncating to the
shorter one. -/
def preUnifyD (uf : Nat) (lp rp : List PTerm) (σ : Sub) :
    Option (Option Sub) :=
  match applyListF uf σ lp with
  | none => none
  | some (la, σ₁) =>
      match applyListF uf σ₁ rp with
      | none => none
      | some (ra, σ₂) =>
          if lp.length ≠ rp.length then some none
          else unifyPairs uf σ₂ ((flattenList la).zip (flattenList ra))

/-- Sequencing of the source's consecutive `match` statements: a case
that returns a substitution ends the call, a case that falls through
(its pattern or guard did not fire, or its recursive call returned
`None`) hands over to the next one; a `none` anywhere is exhaustion
of the step bound. -/
def orTry (a b : Option (Option Sub)) : Option (Option Sub) :=
  match a with
  | none => none
  | some (some s) => some (some s)
  | some none => b

/-- The fresh prefix variable `Variable("_gen" + str(counter))` of the
tenth case (a fresh `Variable` has `copy_num = 0`). -/
def freshGenVar (counter : Nat) : PTerm :=
  .var ("_gen" ++ toString counter) 0

/-- The case cascade of the intuitionistic `pre_unify` on an applied
and flattened triple `(l, m, r)`, one branch per source case in
source order (the third `match` statement carries two mutually
exclusive cases, here the two guarded branches of the second
`orTry`).  The recursive `pre_unify` calls of the case bodies are
abstracted as `recur`. -/
def preUnifyCases (uf : Nat)
    (recur : List PTerm → List PTerm → List PTerm → Sub → Nat →
      Option (Option Sub))
    (l m r : List PTerm) (σ : Sub) (counter : Nat) : Option (Option Sub) :=
  match l, m, r with
  | [], [], [] => some (some σ)
  | l, m, r =>
      orTry
        (match l, m, r with
         | [], [], x :: u => recur (x :: u) [] [] σ counter
         | _, _, _ => some none) <|
      orTry
        (match l, m, r with
         | x :: u, [], y :: w =>
             if x.isVar && y.isVar && PTerm.peq x y then
               recur u [] w σ counter
             else if x.isFunc && y.isFunc then
               match Sub.unify uf σ x y with
               | none => none
               | some (true, _, σ₁) => recur u [] w σ₁ counter
               | some (false, _, _) => some none
             else some none
         | _, _, _ => some none) <|
      orTry
        (match l, m, r with
         | a :: u, [], v :: w =>
             if a.isFunc && v.isVar then
               recur (v :: w) [] (a :: u) σ counter
             else some none
         | _, _, _ => some none) <|
      orTry
        (match l, m, r with
         | v :: u, z, [] =>
             if v.isVar then
               match Sub.unify uf σ v (.func "string" z none) with
               | none => none
               | some (true, _, σ₁) => recur u [] [] σ₁ counter
               | some (false, _, _) => some none
             else some none
         | _, _, _ => some none) <|
      orTry
        (match l, m, r with
         | v :: u, [], a :: w =>
             if a.isFunc && v.isVar then
               match Sub.unify uf σ v (.func "string" [] none) with
               | none => none
               | some (true, _, σ₁) => recur u [] (a :: w) σ₁ counter
               | some (false, _, _) => some none
             else some none
         | _, _, _ => some none) <|
      orTry
        (match l, m, r with
         | v :: u, z, a :: b :: w =>
             if a.isFunc && b.isFunc && v.isVar then
               match Sub.unify uf σ v (.func "string" (z ++ [a]) none) with
               | none => none
               | some (true, _, σ₁) => recur u [] (b :: w) σ₁ counter
               | some (false, _, _) => some none
             else some none
         | _, _, _ => some none) <|
      orTry
        (match l, m, r with
         | v :: y :: u, [], vh :: w =>
             if !PTerm.peq v vh && v.isVar && vh.isVar then
               recur (vh :: w) [v] (y :: u) σ counter
             else some none
         | _, _, _ => some none) <|
      orTry
        (match l, m, r with
         | v :: y :: u, x :: z, vh :: w =>
             if !PTerm.peq v vh && v.isVar && vh.isVar then
               match Sub.unify uf σ v
                   (.func "string" (x :: z ++ [freshGenVar counter]) none) with
               | none => none
               | some (true, _, σ₁) =>
                   recur (vh :: w) [freshGenVar counter] (y :: u) σ₁ counter
               | some (false, _, _) => some none
             else some none
         | _, _, _ => some none) <|
      orTry
        (match l, m, r with
         | v :: u, z, x :: w =>
             if v.isVar && !PTerm.peq v x
                 && (u.isEmpty || !w.isEmpty || x.isFunc) then
               recur (v :: u) (z ++ [x]) w σ counter
             else some none
         | _, _, _ => some none) <|
      some none

/-- `pre_unify` for intuitionistic logic (`unification_intu.py`):
apply the substitution to the three prefix lists in order (threading
the path-compression effects), flatten each, bump the attempt
counter, then run the case cascade, whose recursive calls re-enter at
one less fuel.  `fuel` bounds the recursion depth (`none` = the bound
ran out, mirroring a non-terminating or aborted run); `uf` bounds the
underlying term-level `find`/`unify` calls. -/
def preUnifyI (uf : Nat) : Nat → List PTerm → List PTerm → List PTerm →
    Sub → Nat → Option (Option Sub)
  | 0 => fun _ _ _ _ _ => none
  | fuel + 1 => fun lp mp rp σ counter =>
      match applyListF uf σ lp with
      | none => none
      | some (la, σ₁) =>
          match applyListF uf σ₁ mp with
          | none => none
          | some (ma, σ₂) =>
              match applyListF uf σ₂ rp with
              | none => none
              | some (ra, σ₃) =>
                  preUnifyCases uf (preUnifyI uf fuel) (flattenList la)
                    (flattenList ma) (flattenList ra) σ₃ (counter + 1)

/-- The final shift case's guard as written in the source:
`(not u) or w or isinstance(X, Function)`, a plain disjunction. -/
def codeShiftGuard (u : List PTerm) (X : PTerm) (w : List PTerm) : Bool :=
  u.isEmpty || !w.isEmpty || X.isFunc

/-- The final shift case's guard as the specification words it:
"`u` empty ⇒ `w` non-empty or `X` function". -/
def claimedShiftGuard (u : List PTerm) (X : PTerm) (w : List PTerm) : Bool :=
  !u.isEmpty || !w.isEmpty || X.isFunc

/-- The final shift case fires on `(V∷u, z, X∷w)` (the middle list is
not inspected): `V` must be a variable distinct from `X` and the
source's disjunctive guard must hold. -/
def shiftApplies (l r : List PTerm) : Bool :=
  match l, r with
  | v :: u, x :: w =>
      v.isVar && !PTerm.peq v x && codeShiftGuard u x w
  | _, _ => false

/-- Pattern and guard of the source's first two cases: an empty left
list with an empty middle list (with `r` also empty this is the
success case, otherwise the swap to `(r, [], [])`). -/
def pcEmptyL : List PTerm → List PTerm → List PTerm → Bool
  | [], [], _ => true
  | _, _, _ => false

/-- Pattern and guard of the identical-variables case. -/
def pcVarEq : List PTerm → List PTerm → List PTerm → Bool
  | x :: _, [], y :: _ => x.isVar && y.isVar && PTerm.peq x y
  | _, _, _ => false

/-- Pattern and guard of the function-function unification case. -/
def pcFuncFunc : List PTerm → List PTerm → List PTerm → Bool
  | x :: _, [], y :: _ => x.isFunc && y.isFunc
  | _, _, _ => false

/-- Pattern and guard of the function-into-variable swap case. -/
def pcFuncVar : List PTerm → List PTerm → List PTerm → Bool
  | a :: _, [], v :: _ => a.isFunc && v.isVar
  | _, _, _ => false

/-- Pattern and guard of the variable-against-function case (the
variable is bound to the empty `string`). -/
def pcVarFunc : List PTerm → List PTerm → List PTerm → Bool
  | v :: _, [], a :: _ => a.isFunc && v.isVar
  | _, _, _ => false

/-- Pattern and guard of the variable-against-empty-right case (the
variable swallows the whole middle list). -/
def pcVarNilR : List PTerm → List PTerm → List PTerm → Bool
  | v :: _, _, [] => v.isVar
  | _, _, _ => false

/-- Pattern and guard of the two-leading-functions case. -/
def pcTwoFuncs : List PTerm → List PTerm → List PTerm → Bool
  | v :: _, _, a :: b :: _ => a.isFunc && b.isFunc && v.isVar
  | _, _, _ => false

/-- Pattern and guard of the two distinct-variable cases (middle list
empty or not). -/
def pcVarHat : List PTerm → List PTerm → List PTerm → Bool
  | v :: _ :: _, _, vh :: _ => !PTerm.peq v vh && v.isVar && vh.isVar
  | _, _, _ => false

/-- A flattened triple `(l, m, r)` fires the pattern and guard of one
of the ten cases preceding the final shift case (patterns and guards
only, independent of whether the case's body then succeeds). -/
def priorCasesApply (l m r : List PTerm) : Bool :=
  pcEmptyL l m r || pcVarEq l m r || pcFuncFunc l m r || pcFuncVar l m r
    || pcVarFunc l m r || pcVarNilR l m r || pcTwoFuncs l m r
    || pcVarHat l m r

/-! ## The pure descent: `find`'s traversal reads only the original
`parent` map (all its mutations happen after the recursive call), so
its path is determined by the map alone.  `descF` returns the list of
variable keys visited, `rootF` the representative reached. -/
/-- The list of variable keys visited by `find`'s descent from `t`
(terminal key included); `none` models fuel exhaustion. -/
def descF : Nat → Parent → PTerm → Option (List VKey)
  | 0, _, _ => none
  | _ + 1, _, .func _ _ _ => some []
  | n + 1, p, .var s c =>
      match lookupP p (s, c) with
      | none => some [(s, c)]
      | some pt =>
          if PTerm.peq pt (.var s c) then some [(s, c)]
          else (descF n p pt).map ((s, c) :: ·)

/-- The representative reached by `find`'s descent from `t`, computed
without mutation. -/
def rootF : Nat → Parent → PTerm → Option PTerm
  | 0, _, _ => none
  | _ + 1, _, .func f as p => some (.func f as p)
  | n + 1, p, .var s c =>
      match lookupP p (s, c) with
      | none => some (.var s c)
      | some pt =>
          if PTerm.peq pt (.var s c) then some pt
          else rootF n p pt

/-- `rootOf p t r`: `find`'s untouched descent from `t` terminates at
representative `r` (with some amount of fuel). -/
def rootOf (p : Parent) (t r : PTerm) : Prop := ∃ n, rootF n p t = some r

/-- `r` is terminal for the descent: a compound term, an unmapped
variable, or a self-looped variable. -/
def isTerminalP (p : Parent) : PTerm → Prop
  | .func _ _ _ => True
  | .var s c => lookupP p (s, c) = none ∨
      ∃ o, lookupP p (s, c) = some o ∧ PTerm.peq o (.var s c) = true

/-- Every representative is unchanged. -/
def RootIff (σ σ' : Sub) : Prop :=
  ∀ v x, rootOf σ.parent v x ↔ rootOf σ'.parent v x

/-- The operation only appended entries to the top trail frame, and
undoing them restores the parent map exactly. -/
def TrailRestores (σ σ' : Sub) : Prop :=
  ∀ fr rest, σ.trail = fr :: rest →
    ∃ g, σ'.trail = (fr ++ g) :: rest ∧ undoFrame g σ'.parent = σ.parent

/-- Self-looped entries are untouched. -/
def SelfKeep (σ σ' : Sub) : Prop :=
  ∀ k o, lookupP σ.parent k = some o →
    PTerm.peq o (.var k.1 k.2) = true → lookupP σ'.parent k = some o

/-- The key set of the parent dict is unchanged. -/
def KeysEq (σ σ' : Sub) : Prop :=
  σ'.parent.map Prod.fst = σ.parent.map Prod.fst

def SubStep (σ σ' : Sub) : Prop :=
  RootIff σ σ' ∧ TrailRestores σ σ' ∧ SelfKeep σ σ'

def SubStepK (σ σ' : Sub) : Prop := SubStep σ σ' ∧ KeysEq σ σ'


/-- The pure content of `Substitution.equal`: two terms are equal
modulo the substitution when their representatives are Python-equal,
or share symbol and arity with pairwise equal arguments (as in the
source, this applies to variable representatives too, whose argument
lists are empty). -/
inductive EqModP (p : Parent) : PTerm → PTerm → Prop where
  | of_root {s t s' t'} : rootOf p s s' → rootOf p t t' →
      PTerm.peq s' t' = true → EqModP p s t
  | of_args {s t s' t'} : rootOf p s s' → rootOf p t t' →
      s'.symbol = t'.symbol → s'.args.length = t'.args.length →
      (∀ pr ∈ s'.args.zip t'.args, EqModP p pr.1 pr.2) → EqModP p s t

/-! ## Association-list lemmas for the `parent` dict -/

theorem lookupP_insertP_self (p : Parent) (k : VKey) (v : PTerm) :
    lookupP (insertP p k v) k = some v := by
  induction p with
  | nil => simp [insertP, lookupP]
  | cons hd tl ih =>
      obtain ⟨k', v'⟩ := hd
      by_cases h : k' = k <;> simp [insertP, lookupP, h, ih]

theorem lookupP_insertP_ne (p : Parent) (k k' : VKey) (v : PTerm)
    (h : k' ≠ k) : lookupP (insertP p k v) k' = lookupP p k' := by
  have hkk : ¬ k = k' := fun he => h he.symm
  induction p with
  | nil => simp [insertP, lookupP, hkk]
  | cons hd tl ih =>
      obtain ⟨k₀, v₀⟩ := hd
      by_cases h0 : k₀ = k
      · subst h0
        simp [insertP, lookupP, hkk]
      · by_cases h1 : k₀ = k' <;> simp [insertP, lookupP, h0, h1, ih, h]

theorem insertP_insertP_cancel (p : Parent) (k : VKey) (old v : PTerm)
    (h : lookupP p k = some old) : insertP (insertP p k v) k old = p := by
  induction p with
  | nil => simp [lookupP] at h
  | cons hd tl ih =>
      obtain ⟨k₀, v₀⟩ := hd
      by_cases h0 : k₀ = k
      · subst h0
        simp [lookupP] at h
        simp [insertP, h]
      · simp [lookupP, h0] at h
        simp [insertP, h0, ih h]

theorem insertP_lookup_eq (p : Parent) (k : VKey) (v : PTerm)
    (h : lookupP p k = some v) : insertP p k v = p := by
  induction p with
  | nil => simp [lookupP] at h
  | cons hd tl ih =>
      obtain ⟨k₀, v₀⟩ := hd
      by_cases h0 : k₀ = k
      · subst h0
        simp [lookupP] at h
        simp [insertP, h]
      · simp [lookupP, h0] at h
        simp [insertP, h0, ih h]

theorem eraseP_append (p : Parent) (k : VKey) (v : PTerm)
    (h : lookupP p k = none) : eraseP (p ++ [(k, v)]) k = p := by
  induction p with
  | nil => simp [eraseP]
  | cons hd tl ih =>
      obtain ⟨k₀, v₀⟩ := hd
      rw [lookupP] at h
      by_cases h0 : k₀ = k
      · rw [if_pos h0] at h
        exact absurd h (by simp)
      · rw [if_neg h0] at h
        simp [eraseP, h0, ih h]

theorem lookupP_append (p : Parent) (k k' : VKey) (v : PTerm) :
    lookupP (p ++ [(k, v)]) k' =
      (lookupP p k').orElse (fun _ => if k = k' then some v else none) := by
  induction p with
  | nil => simp [lookupP]
  | cons hd tl ih =>
      obtain ⟨k₀, v₀⟩ := hd
      by_cases h0 : k₀ = k' <;> simp [lookupP, h0, ih]

theorem keys_insertP (p : Parent) (k : VKey) (v : PTerm)
    (h : lookupP p k ≠ none) :
    (insertP p k v).map Prod.fst = p.map Prod.fst := by
  induction p with
  | nil => simp [lookupP] at h
  | cons hd tl ih =>
      obtain ⟨k₀, v₀⟩ := hd
      by_cases h0 : k₀ = k
      · simp [insertP, h0]
      · rw [lookupP, if_neg h0] at h
        simp [insertP, h0, ih h]

theorem lookupP_none_iff_keys (p : Parent) (k : VKey) :
    lookupP p k = none ↔ k ∉ p.map Prod.fst := by
  induction p with
  | nil => simp [lookupP]
  | cons hd tl ih =>
      obtain ⟨k₀, v₀⟩ := hd
      by_cases h0 : k₀ = k
      · simp [lookupP, h0]
      · have hk : ¬ k = k₀ := fun he => h0 he.symm
        simp [lookupP, h0, ih, hk]

theorem descF_mono : ∀ n m p t l, n ≤ m → descF n p t = some l →
    descF m p t = some l := by
  intro n
  induction n with
  | zero => intro m p t l _ h; simp [descF] at h
  | succ n ih =>
      intro m p t l hnm h
      obtain ⟨m, rfl⟩ := Nat.exists_eq_add_of_le hnm
      rw [Nat.succ_add_eq_add_succ] at *
      cases t with
      | func f as q => simpa [descF] using h
      | var s c =>
          simp only [descF] at h ⊢
          cases hl : lookupP p (s, c) with
          | none => simpa [hl] using h
          | some pt =>
              simp only [hl] at h ⊢
              by_cases hpeq : PTerm.peq pt (.var s c) = true
              · simpa [hpeq] using h
              · rw [if_neg hpeq] at h ⊢
                rw [Option.map_eq_some'] at h ⊢
                obtain ⟨l', hl', rfl⟩ := h
                exact ⟨l', ih _ _ _ _ (Nat.le_add_right _ _) hl', rfl⟩

theorem rootF_mono : ∀ n m p t r, n ≤ m → rootF n p t = some r →
    rootF m p t = some r := by
  intro n
  induction n with
  | zero => intro m p t r _ h; simp [rootF] at h
  | succ n ih =>
      intro m p t r hnm h
      obtain ⟨m, rfl⟩ := Nat.exists_eq_add_of_le hnm
      rw [Nat.succ_add_eq_add_succ] at *
      cases t with
      | func f as q => simpa [rootF] using h
      | var s c =>
          simp only [rootF] at h ⊢
          cases hl : lookupP p (s, c) with
          | none => simpa [hl] using h
          | some pt =>
              simp only [hl] at h ⊢
              by_cases hpeq : PTerm.peq pt (.var s c) = true
              · simpa [hpeq] using h
              · rw [if_neg hpeq] at h ⊢
                exact ih _ _ _ _ (Nat.le_add_right _ _) h

theorem rootOf_det {p : Parent} {t r r' : PTerm}
    (h : rootOf p t r) (h' : rootOf p t r') : r = r' := by
  obtain ⟨n, hn⟩ := h
  obtain ⟨m, hm⟩ := h'
  have h1 := rootF_mono n (n + m) p t r (Nat.le_add_right _ _) hn
  have h2 := rootF_mono m (n + m) p t r' (Nat.le_add_left _ _) hm
  rw [h1] at h2
  exact Option.some.inj h2

theorem descF_det {p : Parent} {t : PTerm} {n m : Nat} {l l' : List VKey}
    (h : descF n p t = some l) (h' : descF m p t = some l') : l = l' := by
  have h1 := descF_mono n (n + m) p t l (Nat.le_add_right _ _) h
  have h2 := descF_mono m (n + m) p t l' (Nat.le_add_left _ _) h'
  rw [h1] at h2
  exact Option.some.inj h2

/-- A Python-equal to a variable is that variable (variables carry no
prefix in this embedding, so `peq` on them is structural). -/
theorem peq_var_shape {o : PTerm} {a : String} {b : Nat}
    (h : PTerm.peq o (.var a b) = true) : o = .var a b := by
  cases o with
  | var s c =>
      rw [PTerm.peq_var_iff] at h
      simp [h.1, h.2]
  | func f as p => simp [PTerm.peq] at h

theorem peq_var_shape' {o : PTerm} {a : String} {b : Nat}
    (h : PTerm.peq (.var a b) o = true) : o = .var a b := by
  cases o with
  | var s c =>
      rw [PTerm.peq_var_iff] at h
      simp [h.1, h.2]
  | func f as p => simp [PTerm.peq] at h

theorem rootF_terminal : ∀ n p t r, rootF n p t = some r → isTerminalP p r := by
  intro n
  induction n with
  | zero => intro p t r h; simp [rootF] at h
  | succ n ih =>
      intro p t r h
      cases t with
      | func f as q =>
          simp [rootF] at h
          simp [← h, isTerminalP]
      | var s c =>
          simp only [rootF] at h
          cases hl : lookupP p (s, c) with
          | none =>
              simp [hl] at h
              simp [← h, isTerminalP, hl]
          | some pt =>
              simp only [hl] at h
              by_cases hpeq : PTerm.peq pt (.var s c) = true
              · rw [if_pos hpeq] at h
                have hsh := peq_var_shape hpeq
                cases h
                subst hsh
                exact Or.inr ⟨.var s c, hl, hpeq⟩
              · rw [if_neg hpeq] at h
                exact ih p pt r h

theorem terminal_rootF_one {p : Parent} {r : PTerm}
    (h : isTerminalP p r) : rootF 1 p r = some r := by
  cases r with
  | func f as q => simp [rootF]
  | var s c =>
      simp only [isTerminalP] at h
      rcases h with h | ⟨o, ho, hpeq⟩
      · simp [rootF, h]
      · have := peq_var_shape hpeq
        subst this
        simp [rootF, ho, hpeq]

theorem terminal_rootOf {p : Parent} {r : PTerm}
    (h : isTerminalP p r) : rootOf p r r := ⟨1, terminal_rootF_one h⟩

theorem rootOf_terminal {p : Parent} {t r : PTerm}
    (h : rootOf p t r) : isTerminalP p r := by
  obtain ⟨n, hn⟩ := h
  exact rootF_terminal n p t r hn

theorem rootF_var_none {n : Nat} {p : Parent} {s : String} {c : Nat}
    (hl : lookupP p (s, c) = none) :
    rootF (n + 1) p (.var s c) = some (.var s c) := by
  simp [rootF, hl]

theorem rootF_var_loop {n : Nat} {p : Parent} {s : String} {c : Nat}
    {pt : PTerm} (hl : lookupP p (s, c) = some pt)
    (hpeq : PTerm.peq pt (.var s c) = true) :
    rootF (n + 1) p (.var s c) = some pt := by
  simp [rootF, hl, hpeq]

theorem rootF_var_step {n : Nat} {p : Parent} {s : String} {c : Nat}
    {pt : PTerm} (hl : lookupP p (s, c) = some pt)
    (hpeq : ¬ PTerm.peq pt (.var s c) = true) :
    rootF (n + 1) p (.var s c) = rootF n p pt := by
  simp only [rootF, hl]
  rw [if_neg hpeq]

theorem descF_var_none {n : Nat} {p : Parent} {s : String} {c : Nat}
    (hl : lookupP p (s, c) = none) :
    descF (n + 1) p (.var s c) = some [(s, c)] := by
  simp [descF, hl]

theorem descF_var_loop {n : Nat} {p : Parent} {s : String} {c : Nat}
    {pt : PTerm} (hl : lookupP p (s, c) = some pt)
    (hpeq : PTerm.peq pt (.var s c) = true) :
    descF (n + 1) p (.var s c) = some [(s, c)] := by
  simp [descF, hl, hpeq]

theorem descF_var_step {n : Nat} {p : Parent} {s : String} {c : Nat}
    {pt : PTerm} (hl : lookupP p (s, c) = some pt)
    (hpeq : ¬ PTerm.peq pt (.var s c) = true) :
    descF (n + 1) p (.var s c) = (descF n p pt).map ((s, c) :: ·) := by
  simp only [descF, hl]
  rw [if_neg hpeq]

theorem rootOf_step {p : Parent} {s : String} {c : Nat} {pt : PTerm}
    (hl : lookupP p (s, c) = some pt)
    (hpeq : ¬ PTerm.peq pt (.var s c) = true) (x : PTerm) :
    rootOf p (.var s c) x ↔ rootOf p pt x := by
  constructor
  · rintro ⟨n, hn⟩
    cases n with
    | zero => simp [rootF] at hn
    | succ n =>
        rw [rootF_var_step hl hpeq] at hn
        exact ⟨n, hn⟩
  · rintro ⟨n, hn⟩
    exact ⟨n + 1, by rw [rootF_var_step hl hpeq]; exact hn⟩

/-- Every key visited by a terminating descent starts a terminating
descent of its own whose visit list is a suffix. -/
theorem descF_suffix : ∀ n p t l, descF n p t = some l →
    ∀ k ∈ l, ∃ m l', m ≤ n ∧ descF m p (.var k.1 k.2) = some (k :: l') ∧
      (k :: l') <:+ l := by
  intro n
  induction n with
  | zero => intro p t l h; simp [descF] at h
  | succ n ih =>
      intro p t l h k hk
      cases t with
      | func f as q =>
          simp [descF] at h
          subst h
          simp at hk
      | var s c =>
          cases hl : lookupP p (s, c) with
          | none =>
              rw [descF_var_none hl] at h
              cases h
              simp at hk
              subst hk
              exact ⟨n + 1, [], le_refl _, descF_var_none hl, by simp⟩
          | some pt =>
              by_cases hpeq : PTerm.peq pt (.var s c) = true
              · rw [descF_var_loop hl hpeq] at h
                cases h
                simp at hk
                subst hk
                exact ⟨n + 1, [], le_refl _, descF_var_loop hl hpeq,
                  by simp⟩
              · rw [descF_var_step hl hpeq] at h
                rw [Option.map_eq_some'] at h
                obtain ⟨l₀, hl₀, rfl⟩ := h
                rcases List.mem_cons.mp hk with rfl | hk0
                · refine ⟨n + 1, l₀, le_refl _, ?_, List.suffix_refl _⟩
                  rw [descF_var_step hl hpeq, hl₀]
                  rfl
                · obtain ⟨m, l', hm, hd, hs⟩ := ih p pt l₀ hl₀ k hk0
                  exact ⟨m, l', Nat.le_succ_of_le hm, hd,
                    hs.trans (List.suffix_cons _ _)⟩

/-- No terminating descent from a variable's value revisits that
variable: the chain read by `find` on the way in is cycle-free
whenever it terminates. -/
theorem desc_no_revisit {p : Parent} {s : String} {c : Nat} {pt : PTerm}
    {n : Nat} {l : List VKey} (hk : lookupP p (s, c) = some pt)
    (hpeq : ¬ PTerm.peq pt (.var s c) = true)
    (h : descF n p pt = some l) : (s, c) ∉ l := by
  intro hmem
  obtain ⟨m, l', _, hd, hs⟩ := descF_suffix n p pt l h (s, c) hmem
  cases m with
  | zero => simp [descF] at hd
  | succ m =>
      have hd' : descF (m + 1) p (.var s c) = some ((s, c) :: l') := hd
      rw [descF_var_step hk hpeq] at hd'
      rw [Option.map_eq_some'] at hd'
      obtain ⟨l₀, hl₀, he⟩ := hd'
      have hl' : l₀ = l' := by
        injection he with h1 h2
      have hll : l₀ = l := descF_det hl₀ h
      have hlen := List.IsSuffix.length_le hs
      rw [← hl', hll] at hlen
      simp at hlen

theorem lookupP_insertP_self' (p : Parent) (s : String) (c : Nat)
    (r : PTerm) : lookupP (insertP p (s, c) r) (s, c) = some r :=
  lookupP_insertP_self p (s, c) r

/-- The inserted root is terminal in the new map and reaches itself. -/
theorem shortcut_self {p : Parent} {s : String} {c : Nat} {r : PTerm}
    (hr : rootOf p (.var s c) r) :
    rootOf (insertP p (s, c) r) r r := by
  have hterm : isTerminalP p r := rootOf_terminal hr
  cases r with
  | func f as q => exact ⟨1, by simp [rootF]⟩
  | var a b =>
      by_cases hk : (a, b) = (s, c)
      · obtain ⟨h1, h2⟩ := Prod.mk.injEq .. ▸ hk
        subst h1; subst h2
        refine ⟨1, ?_⟩
        rw [rootF_var_loop (lookupP_insertP_self' p a b _) (by
          simp [PTerm.peq_refl])]
      · simp only [isTerminalP] at hterm
        have hne : lookupP (insertP p (s, c) (.var a b)) (a, b) =
            lookupP p (a, b) := lookupP_insertP_ne _ _ _ _ hk
        rcases hterm with h0 | ⟨o, ho, hpeq⟩
        · exact ⟨1, rootF_var_none (by rw [hne, h0])⟩
        · exact ⟨1, by
            rw [rootF_var_loop (by rw [hne, ho]) hpeq,
              peq_var_shape hpeq]⟩

/-- Inserting `k ↦ r` where `r` is already the root of `k`'s chain
(a path-compression write, or a fresh self-loop when `k` is unmapped
and `r` is the variable itself) preserves every descent's
representative. -/
theorem rootOf_insert_shortcut {p : Parent} {s₀ : String} {c₀ : Nat}
    {r : PTerm} (hr : rootOf p (.var s₀ c₀) r) :
    ∀ v x, rootOf p v x ↔ rootOf (insertP p (s₀, c₀) r) v x := by
  have hterm' : rootOf (insertP p (s₀, c₀) r) r r := shortcut_self hr
  have hself : rootOf (insertP p (s₀, c₀) r) (.var s₀ c₀) r := by
    by_cases hpeq : PTerm.peq r (.var s₀ c₀) = true
    · exact ⟨1, rootF_var_loop (lookupP_insertP_self' p s₀ c₀ r) hpeq⟩
    · obtain ⟨m, hm⟩ := hterm'
      refine ⟨m + 1, ?_⟩
      rw [rootF_var_step (lookupP_insertP_self' p s₀ c₀ r) hpeq]
      exact hm
  intro v x
  constructor
  · rintro ⟨n, hn⟩
    induction n generalizing v x with
    | zero => simp [rootF] at hn
    | succ n ih =>
        cases v with
        | func f as q =>
            simp [rootF] at hn
            exact ⟨1, by simp [rootF, hn]⟩
        | var s c =>
            by_cases hk : (s, c) = (s₀, c₀)
            · obtain ⟨h1, h2⟩ := Prod.mk.injEq .. ▸ hk
              subst h1; subst h2
              have hx : x = r := rootOf_det ⟨n + 1, hn⟩ hr
              subst hx
              exact hself
            · cases hl : lookupP p (s, c) with
              | none =>
                  rw [rootF_var_none hl] at hn
                  cases hn
                  exact ⟨1, rootF_var_none (by
                    rw [lookupP_insertP_ne _ _ _ _ hk, hl])⟩
              | some pt =>
                  by_cases hpeq : PTerm.peq pt (.var s c) = true
                  · rw [rootF_var_loop hl hpeq] at hn
                    cases hn
                    exact ⟨1, rootF_var_loop (by
                      rw [lookupP_insertP_ne _ _ _ _ hk, hl]) hpeq⟩
                  · rw [rootF_var_step hl hpeq] at hn
                    obtain ⟨m, hm⟩ := ih pt x hn
                    refine ⟨m + 1, ?_⟩
                    rw [rootF_var_step (by
                      rw [lookupP_insertP_ne _ _ _ _ hk, hl]) hpeq]
                    exact hm
  · rintro ⟨n, hn⟩
    induction n generalizing v x with
    | zero => simp [rootF] at hn
    | succ n ih =>
        cases v with
        | func f as q =>
            simp [rootF] at hn
            exact ⟨1, by simp [rootF, hn]⟩
        | var s c =>
            by_cases hk : (s, c) = (s₀, c₀)
            · obtain ⟨h1, h2⟩ := Prod.mk.injEq .. ▸ hk
              subst h1; subst h2
              have hx : x = r := rootOf_det ⟨n + 1, hn⟩ hself
              subst hx
              exact hr
            · have hne : lookupP (insertP p (s₀, c₀) r) (s, c) =
                  lookupP p (s, c) := lookupP_insertP_ne _ _ _ _ hk
              cases hl : lookupP p (s, c) with
              | none =>
                  rw [rootF_var_none (by rw [hne, hl])] at hn
                  cases hn
                  exact ⟨1, rootF_var_none hl⟩
              | some pt =>
                  by_cases hpeq : PTerm.peq pt (.var s c) = true
                  · rw [rootF_var_loop (by rw [hne, hl]) hpeq] at hn
                    cases hn
                    exact ⟨1, rootF_var_loop hl hpeq⟩
                  · rw [rootF_var_step (by rw [hne, hl]) hpeq] at hn
                    obtain ⟨m, hm⟩ := ih pt x hn
                    refine ⟨m + 1, ?_⟩
                    rw [rootF_var_step hl hpeq]
                    exact hm

/-! ## The master specification of `find` -/

theorem recordEntry_parent (σ : Sub) (e : Entry) :
    (recordEntry σ e).parent = σ.parent := by
  unfold recordEntry
  cases h : σ.trail <;> rfl

theorem recordEntry_trail_cons {σ : Sub} {fr : List Entry}
    {rest : List (List Entry)} (h : σ.trail = fr :: rest) (e : Entry) :
    (recordEntry σ e).trail = (fr ++ [e]) :: rest := by
  unfold recordEntry
  rw [h]

theorem undoFrame_append (a b : List Entry) (p : Parent) :
    undoFrame (a ++ b) p = undoFrame a (undoFrame b p) :=
  List.foldr_append _ _ _ _

theorem insertP_of_none {p : Parent} {k : VKey} {v : PTerm}
    (h : lookupP p k = none) : insertP p k v = p ++ [(k, v)] := by
  induction p with
  | nil => simp [insertP]
  | cons hd tl ih =>
      obtain ⟨k₀, v₀⟩ := hd
      rw [lookupP] at h
      by_cases h0 : k₀ = k
      · rw [if_pos h0] at h
        exact absurd h (by simp)
      · rw [if_neg h0] at h
        simp [insertP, h0, ih h]

theorem findF_func (n : Nat) (σ : Sub) (f : String) (as : List PTerm)
    (q : Option PTerm) (add : Bool) :
    findF (n + 1) σ (.func f as q) add = some (.func f as q, σ) := rfl

/-- The combined behaviour of `Substitution.find`: its result is the
pure root of the untouched map; it only writes keys on the pure
descent; it preserves every representative; its writes are exactly
undone by the entries it appends to the top trail frame; with
`add=False` it preserves the key set; it never disturbs a self-looped
entry; and with `add=True` a variable result is self-looped in the
resulting map. -/
theorem findF_spec : ∀ n σ u add r σ', findF n σ u add = some (r, σ') →
    rootF n σ.parent u = some r ∧
    (∃ l, descF n σ.parent u = some l ∧
      ∀ k, k ∉ l → lookupP σ'.parent k = lookupP σ.parent k) ∧
    (∀ v x, rootOf σ.parent v x ↔ rootOf σ'.parent v x) ∧
    (∀ fr rest, σ.trail = fr :: rest →
      ∃ g, σ'.trail = (fr ++ g) :: rest ∧ undoFrame g σ'.parent = σ.parent) ∧
    (add = false → σ'.parent.map Prod.fst = σ.parent.map Prod.fst) ∧
    (∀ k o, lookupP σ.parent k = some o →
      PTerm.peq o (.var k.1 k.2) = true → lookupP σ'.parent k = some o) ∧
    (add = true → ∀ a b, r = .var a b →
      ∃ o, lookupP σ'.parent (a, b) = some o ∧ PTerm.peq o r = true) := by
  intro n
  induction n with
  | zero => intro σ u add r σ' h; simp [findF] at h
  | succ n ih =>
      intro σ u add r σ' h
      cases u with
      | func f as q =>
          rw [findF_func] at h
          obtain ⟨h1, h2⟩ := Prod.mk.injEq .. ▸ Option.some.inj h
          subst h1; subst h2
          refine ⟨by simp [rootF], ⟨[], by simp [descF], fun _ _ => rfl⟩,
            fun v x => Iff.rfl, fun fr rest hfr => ⟨[], by simp [hfr], rfl⟩,
            fun _ => rfl, fun k o hk _ => hk, fun _ a b he => ?_⟩
          simp at he
      | var s c =>
          cases hl : lookupP σ.parent (s, c) with
          | none =>
              cases add with
              | false =>
                  have h' : some (PTerm.var s c, σ) = some (r, σ') := by
                    rw [← h]; simp [findF, hl]
                  obtain ⟨h1, h2⟩ := Prod.mk.injEq .. ▸ Option.some.inj h'
                  subst h1; subst h2
                  refine ⟨rootF_var_none hl, ⟨[(s, c)], descF_var_none hl,
                    fun _ _ => rfl⟩, fun v x => Iff.rfl,
                    fun fr rest hfr => ⟨[], by simp [hfr], rfl⟩,
                    fun _ => rfl, fun k o hk _ => hk, fun hadd => by simp at hadd⟩
              | true =>
                  have h' : some (PTerm.var s c,
                      ({ recordEntry σ (.ins (s, c)) with
                        parent := (recordEntry σ (.ins (s, c))).parent ++
                          [((s, c), PTerm.var s c)] } : Sub)) = some (r, σ') := by
                    rw [← h]; simp [findF, hl]
                  obtain ⟨h1, h2⟩ := Prod.mk.injEq .. ▸ Option.some.inj h'
                  subst h1
                  have hp : σ'.parent = σ.parent ++ [((s, c), PTerm.var s c)] := by
                    rw [← h2]; simp [recordEntry_parent]
                  have hlk : ∀ k : VKey, k ≠ (s, c) →
                      lookupP σ'.parent k = lookupP σ.parent k := by
                    intro k hk
                    rw [hp, lookupP_append]
                    cases hv : lookupP σ.parent k
                    · have hne : ¬ (s, c) = k := fun h => hk h.symm
                      simp [hne]
                    · simp
                  refine ⟨rootF_var_none hl, ⟨[(s, c)], descF_var_none hl, ?_⟩,
                    ?_, ?_, fun hadd => by simp at hadd, ?_, ?_⟩
                  · intro k hk
                    simp at hk
                    exact hlk k (by simpa using hk)
                  · intro v x
                    have : σ'.parent = insertP σ.parent (s, c) (.var s c) := by
                      rw [hp, insertP_of_none hl]
                    rw [this]
                    exact rootOf_insert_shortcut ⟨1, rootF_var_none hl⟩ v x
                  · intro fr rest hfr
                    refine ⟨[.ins (s, c)], ?_, ?_⟩
                    · rw [← h2]
                      simp [recordEntry_trail_cons hfr]
                    · rw [hp]
                      simpa [undoFrame, undoEntry] using eraseP_append _ _ _ hl
                  · intro k o hk hpeq
                    have hne : k ≠ (s, c) := by
                      intro he; subst he
                      rw [hk] at hl; cases hl
                    rw [hlk k hne]; exact hk
                  · intro _ a b he
                    obtain ⟨ha, hb⟩ := PTerm.var.injEq .. ▸ he
                    subst ha; subst hb
                    refine ⟨.var s c, ?_, PTerm.peq_refl _⟩
                    rw [hp, lookupP_append, hl]
                    simp
          | some pt =>
              by_cases hpeq : PTerm.peq pt (.var s c) = true
              · have h' : some (pt, σ) = some (r, σ') := by
                  rw [← h]; simp [findF, hl, hpeq]
                obtain ⟨h1, h2⟩ := Prod.mk.injEq .. ▸ Option.some.inj h'
                subst h1; subst h2
                refine ⟨rootF_var_loop hl hpeq, ⟨[(s, c)], descF_var_loop hl hpeq,
                  fun _ _ => rfl⟩, fun v x => Iff.rfl,
                  fun fr rest hfr => ⟨[], by simp [hfr], rfl⟩,
                  fun _ => rfl, fun k o hk _ => hk, ?_⟩
                intro _ a b he
                subst he
                have hsh := peq_var_shape hpeq
                refine ⟨.var a b, ?_, PTerm.peq_refl _⟩
                have hkey : ((a, b) : VKey) = (s, c) := by
                  obtain ⟨ha, hb⟩ := PTerm.var.injEq .. ▸ hsh
                  rw [ha, hb]
                rw [hkey]
                exact hl
              · -- the compression step
                have hstep : ∀ r₀ σ₁, findF n σ pt add = some (r₀, σ₁) →
                    findF (n + 1) σ (.var s c) add =
                      (if PTerm.peq pt r₀ then
                        some (r₀, { σ₁ with
                          parent := insertP σ₁.parent (s, c) r₀ })
                      else
                        some (r₀, recordEntry { σ₁ with
                          parent := insertP σ₁.parent (s, c) r₀ }
                          (.set (s, c) pt r₀))) := by
                  intro r₀ σ₁ hr
                  simp only [findF, hl]
                  rw [if_neg hpeq, hr]
                cases hrec : findF n σ pt add with
                | none =>
                    rw [show findF (n + 1) σ (.var s c) add = none from by
                      simp only [findF, hl]; rw [if_neg hpeq, hrec]] at h
                    cases h
                | some pr =>
                    obtain ⟨r₀, σ₁⟩ := pr
                    rw [hstep r₀ σ₁ hrec] at h
                    obtain ⟨hroot₁, ⟨l₀, hdesc₀, huntouched⟩, hiff₁, hres₁,
                      hkeys₁, hself₁, hradd₁⟩ := ih σ pt add r₀ σ₁ hrec
                    -- the key (s, c) is not on the descent from pt
                    have hnot : (s, c) ∉ l₀ := desc_no_revisit hl hpeq hdesc₀
                    have hkeep : lookupP σ₁.parent (s, c) = some pt := by
                      rw [huntouched (s, c) hnot]; exact hl
                    -- representative facts
                    have hrofσ : rootOf σ.parent (.var s c) r₀ :=
                      (rootOf_step hl hpeq r₀).mpr ⟨n, hroot₁⟩
                    have hrof₁ : rootOf σ₁.parent (.var s c) r₀ :=
                      (hiff₁ _ _).mp hrofσ
                    have hiff₂ : ∀ v x, rootOf σ₁.parent v x ↔
                        rootOf (insertP σ₁.parent (s, c) r₀) v x :=
                      rootOf_insert_shortcut hrof₁
                    -- common parent of the result
                    have hpar : σ'.parent = insertP σ₁.parent (s, c) r₀ := by
                      by_cases hpr : PTerm.peq pt r₀ = true
                      · rw [if_pos hpr] at h
                        obtain ⟨h1, h2⟩ := Prod.mk.injEq .. ▸ Option.some.inj h
                        rw [← h2]
                      · rw [if_neg hpr] at h
                        obtain ⟨h1, h2⟩ := Prod.mk.injEq .. ▸ Option.some.inj h
                        rw [← h2, recordEntry_parent]
                    have hr₀ : r = r₀ := by
                      by_cases hpr : PTerm.peq pt r₀ = true
                      · rw [if_pos hpr] at h
                        obtain ⟨h1, _⟩ := Prod.mk.injEq .. ▸ Option.some.inj h
                        exact h1.symm
                      · rw [if_neg hpr] at h
                        obtain ⟨h1, _⟩ := Prod.mk.injEq .. ▸ Option.some.inj h
                        exact h1.symm
                    subst hr₀
                    refine ⟨?_, ?_, ?_, ?_, ?_, ?_, ?_⟩
                    · rw [rootF_var_step hl hpeq]; exact hroot₁
                    · refine ⟨(s, c) :: l₀, ?_, ?_⟩
                      · rw [descF_var_step hl hpeq, hdesc₀]; rfl
                      · intro k hk
                        have hk1 : k ≠ (s, c) := fun he => hk (he ▸ List.mem_cons_self _ _)
                        have hk2 : k ∉ l₀ := fun he => hk (List.mem_cons_of_mem _ he)
                        rw [hpar, lookupP_insertP_ne _ _ _ _ hk1]
                        exact huntouched k hk2
                    · intro v x
                      rw [hpar]
                      exact (hiff₁ v x).trans (hiff₂ v x)
                    · intro fr rest hfr
                      obtain ⟨g₁, htr₁, hundo₁⟩ := hres₁ fr rest hfr
                      by_cases hpr : PTerm.peq pt r = true
                      · -- unrecorded write: it is a no-op, `r` equals `pt`
                        have hrpt : r = pt := by
                          cases pt with
                          | func pf pas pq =>
                              cases n with
                              | zero => simp [rootF] at hroot₁
                              | succ m =>
                                  simp [rootF] at hroot₁
                                  exact hroot₁.symm
                          | var ps pc => exact peq_var_shape' hpr
                        rw [if_pos hpr] at h
                        obtain ⟨h1, h2⟩ := Prod.mk.injEq .. ▸ Option.some.inj h
                        refine ⟨g₁, ?_, ?_⟩
                        · rw [← h2]; exact htr₁
                        · rw [hpar, hrpt, insertP_lookup_eq _ _ _ hkeep]
                          exact hundo₁
                      · rw [if_neg hpr] at h
                        obtain ⟨h1, h2⟩ := Prod.mk.injEq .. ▸ Option.some.inj h
                        refine ⟨g₁ ++ [.set (s, c) pt r], ?_, ?_⟩
                        · rw [← h2, @recordEntry_trail_cons
                            ⟨insertP σ₁.parent (s, c) r, σ₁.trail⟩ (fr ++ g₁)
                            rest htr₁ (.set (s, c) pt r)]
                          rw [List.append_assoc]
                        · rw [undoFrame_append, hpar]
                          have hone : undoFrame [.set (s, c) pt r]
                              (insertP σ₁.parent (s, c) r) = σ₁.parent := by
                            simp only [undoFrame, List.foldr, undoEntry]
                            exact insertP_insertP_cancel _ _ _ _ hkeep
                          rw [hone]
                          exact hundo₁
                    · intro hadd
                      rw [hpar, keys_insertP _ _ _ (by rw [hkeep]; simp)]
                      exact hkeys₁ hadd
                    · intro k o hk hpeqo
                      have hne : k ≠ (s, c) := by
                        intro he; subst he
                        rw [hk] at hl
                        cases hl
                        exact hpeq hpeqo
                      rw [hpar, lookupP_insertP_ne _ _ _ _ hne]
                      exact hself₁ k o hk hpeqo
                    · intro hadd a b he
                      subst he
                      obtain ⟨o, ho, hpeqo⟩ := hradd₁ hadd a b rfl
                      by_cases hab : ((a, b) : VKey) = (s, c)
                      · refine ⟨.var a b, ?_, PTerm.peq_refl _⟩
                        rw [hpar, hab, lookupP_insertP_self]
                      · refine ⟨o, ?_, hpeqo⟩
                        rw [hpar, lookupP_insertP_ne _ _ _ _ hab]
                        exact ho

/-! ## Preservation predicates and their lifting to the composite
operations -/

theorem SubStep_refl (σ : Sub) : SubStep σ σ :=
  ⟨fun _ _ => Iff.rfl, fun fr rest h => ⟨[], by simp [h], rfl⟩,
    fun _ _ hk _ => hk⟩

theorem SubStepK_refl (σ : Sub) : SubStepK σ σ := ⟨SubStep_refl σ, rfl⟩

theorem SubStep_trans {σ₁ σ₂ σ₃ : Sub} (h12 : SubStep σ₁ σ₂)
    (h23 : SubStep σ₂ σ₃) : SubStep σ₁ σ₃ := by
  obtain ⟨hi12, ht12, hs12⟩ := h12
  obtain ⟨hi23, ht23, hs23⟩ := h23
  refine ⟨fun v x => (hi12 v x).trans (hi23 v x), ?_,
    fun k o hk hp => hs23 k o (hs12 k o hk hp) hp⟩
  intro fr rest h1
  obtain ⟨g₁, htr₁, hu₁⟩ := ht12 fr rest h1
  obtain ⟨g₂, htr₂, hu₂⟩ := ht23 (fr ++ g₁) rest htr₁
  refine ⟨g₁ ++ g₂, ?_, ?_⟩
  · rw [htr₂, List.append_assoc]
  · rw [undoFrame_append, hu₂, hu₁]

theorem SubStepK_trans {σ₁ σ₂ σ₃ : Sub} (h12 : SubStepK σ₁ σ₂)
    (h23 : SubStepK σ₂ σ₃) : SubStepK σ₁ σ₃ :=
  ⟨SubStep_trans h12.1 h23.1, h23.2.trans h12.2⟩

theorem findF_substep {n : Nat} {σ : Sub} {u : PTerm} {add : Bool}
    {r : PTerm} {σ' : Sub} (h : findF n σ u add = some (r, σ')) :
    SubStep σ σ' := by
  obtain ⟨_, _, h3, h4, _, h6, _⟩ := findF_spec n σ u add r σ' h
  exact ⟨h3, h4, h6⟩

theorem findF_substepK {n : Nat} {σ : Sub} {u : PTerm} {r : PTerm}
    {σ' : Sub} (h : findF n σ u false = some (r, σ')) :
    SubStepK σ σ' := by
  obtain ⟨_, _, h3, h4, h5, h6, _⟩ := findF_spec n σ u false r σ' h
  exact ⟨⟨h3, h4, h6⟩, h5 rfl⟩

/-- `occurs_check` only performs `find(·, add=False)` traversals:
it preserves representatives, the key set, self-loops, and its trail
entries restore exactly. -/
theorem occurs_substepK : ∀ n,
    (∀ σ v t b σ', occursCheckF n σ v t = some (b, σ') → SubStepK σ σ') ∧
    (∀ σ v as b σ', occursAnyF n σ v as = some (b, σ') → SubStepK σ σ') := by
  intro n
  induction n with
  | zero =>
      constructor
      · intro σ v t b σ' h; simp [occursCheckF] at h
      · intro σ v as b σ' h; simp [occursAnyF] at h
  | succ n ih =>
      constructor
      · intro σ v t b σ' h
        simp only [occursCheckF] at h
        cases hf : findF n σ t false with
        | none => rw [hf] at h; cases h
        | some pr =>
            obtain ⟨root, σ₁⟩ := pr
            rw [hf] at h
            dsimp only at h
            have hstep₁ := findF_substepK hf
            by_cases hp : PTerm.peq v root = true
            · rw [if_pos hp] at h
              obtain ⟨_, h2⟩ := Prod.mk.injEq .. ▸ Option.some.inj h
              exact h2 ▸ hstep₁
            · rw [if_neg hp] at h
              exact SubStepK_trans hstep₁ (ih.2 σ₁ v root.args b σ' h)
      · intro σ v as b σ' h
        cases as with
        | nil =>
            simp only [occursAnyF] at h
            obtain ⟨_, h2⟩ := Prod.mk.injEq .. ▸ Option.some.inj h
            exact h2 ▸ SubStepK_refl σ
        | cons a rest =>
            simp only [occursAnyF] at h
            cases hc : occursCheckF n σ v a with
            | none => rw [hc] at h; cases h
            | some pr =>
                obtain ⟨b₁, σ₁⟩ := pr
                rw [hc] at h
                have hstep₁ := ih.1 σ v a b₁ σ₁ hc
                cases b₁ with
                | true =>
                    dsimp only at h
                    obtain ⟨_, h2⟩ := Prod.mk.injEq .. ▸ Option.some.inj h
                    exact h2 ▸ hstep₁
                | false =>
                    dsimp only at h
                    exact SubStepK_trans hstep₁ (ih.2 σ₁ v rest b σ' h)

/-- `equal` likewise only performs `find(·, add=False)` traversals. -/
theorem equal_substepK : ∀ n,
    (∀ σ s t b σ', equalF n σ s t = some (b, σ') → SubStepK σ σ') ∧
    (∀ σ prs b σ', equalAllF n σ prs = some (b, σ') → SubStepK σ σ') := by
  intro n
  induction n with
  | zero =>
      constructor
      · intro σ s t b σ' h; simp [equalF] at h
      · intro σ prs b σ' h; simp [equalAllF] at h
  | succ n ih =>
      constructor
      · intro σ s t b σ' h
        simp only [equalF] at h
        cases hf : findF n σ s false with
        | none => rw [hf] at h; cases h
        | some pr =>
            obtain ⟨s', σ₁⟩ := pr
            rw [hf] at h
            dsimp only at h
            cases hg : findF n σ₁ t false with
            | none => rw [hg] at h; cases h
            | some pr₂ =>
                obtain ⟨t', σ₂⟩ := pr₂
                rw [hg] at h
                dsimp only at h
                have h12 := SubStepK_trans (findF_substepK hf) (findF_substepK hg)
                by_cases hp : PTerm.peq s' t' = true
                · rw [if_pos hp] at h
                  obtain ⟨_, h2⟩ := Prod.mk.injEq .. ▸ Option.some.inj h
                  exact h2 ▸ h12
                · rw [if_neg hp] at h
                  by_cases hsym : (s'.symbol == t'.symbol
                      && s'.args.length == t'.args.length) = true
                  · rw [if_pos hsym] at h
                    exact SubStepK_trans h12 (ih.2 σ₂ (s'.args.zip t'.args) b σ' h)
                  · rw [if_neg hsym] at h
                    obtain ⟨_, h2⟩ := Prod.mk.injEq .. ▸ Option.some.inj h
                    exact h2 ▸ h12
      · intro σ prs b σ' h
        cases prs with
        | nil =>
            simp only [equalAllF] at h
            obtain ⟨_, h2⟩ := Prod.mk.injEq .. ▸ Option.some.inj h
            exact h2 ▸ SubStepK_refl σ
        | cons pr rest =>
            obtain ⟨a, bb⟩ := pr
            simp only [equalAllF] at h
            cases hc : equalF n σ a bb with
            | none => rw [hc] at h; cases h
            | some pr₁ =>
                obtain ⟨b₁, σ₁⟩ := pr₁
                rw [hc] at h
                have hstep₁ := ih.1 σ a bb b₁ σ₁ hc
                cases b₁ with
                | false =>
                    dsimp only at h
                    obtain ⟨_, h2⟩ := Prod.mk.injEq .. ▸ Option.some.inj h
                    exact h2 ▸ hstep₁
                | true =>
                    dsimp only at h
                    exact SubStepK_trans hstep₁ (ih.2 σ₁ rest b σ' h)

/-- `__call__` (substitution application) likewise. -/
theorem apply_substepK : ∀ n,
    (∀ σ t r σ', applyF n σ t = some (r, σ') → SubStepK σ σ') ∧
    (∀ σ ts rs σ', applyListF n σ ts = some (rs, σ') → SubStepK σ σ') := by
  intro n
  induction n with
  | zero =>
      constructor
      · intro σ t r σ' h; simp [applyF] at h
      · intro σ ts rs σ' h; simp [applyListF] at h
  | succ n ih =>
      constructor
      · intro σ t r σ' h
        simp only [applyF] at h
        cases hf : findF n σ t false with
        | none => rw [hf] at h; cases h
        | some pr =>
            obtain ⟨root, σ₁⟩ := pr
            rw [hf] at h
            dsimp only at h
            have hstep₁ := findF_substepK hf
            cases root with
            | var a b =>
                dsimp only at h
                obtain ⟨_, h2⟩ := Prod.mk.injEq .. ▸ Option.some.inj h
                exact h2 ▸ hstep₁
            | func f as q =>
                dsimp only at h
                cases hls : applyListF n σ₁ as with
                | none => rw [hls] at h; cases h
                | some pr₂ =>
                    obtain ⟨as', σ₂⟩ := pr₂
                    rw [hls] at h
                    dsimp only at h
                    obtain ⟨_, h2⟩ := Prod.mk.injEq .. ▸ Option.some.inj h
                    exact h2 ▸ (SubStepK_trans hstep₁ (ih.2 σ₁ as as' σ₂ hls))
      · intro σ ts rs σ' h
        cases ts with
        | nil =>
            simp only [applyListF] at h
            obtain ⟨_, h2⟩ := Prod.mk.injEq .. ▸ Option.some.inj h
            exact h2 ▸ SubStepK_refl σ
        | cons a rest =>
            simp only [applyListF] at h
            cases hc : applyF n σ a with
            | none => rw [hc] at h; cases h
            | some pr₁ =>
                obtain ⟨a', σ₁⟩ := pr₁
                rw [hc] at h
                dsimp only at h
                cases hls : applyListF n σ₁ rest with
                | none => rw [hls] at h; cases h
                | some pr₂ =>
                    obtain ⟨rest', σ₂⟩ := pr₂
                    rw [hls] at h
                    dsimp only at h
                    obtain ⟨_, h2⟩ := Prod.mk.injEq .. ▸ Option.some.inj h
                    exact h2 ▸ (SubStepK_trans (ih.1 σ a a' σ₁ hc)
                      (ih.2 σ₁ rest rest' σ₂ hls))

theorem TrailRestores_refl (σ : Sub) : TrailRestores σ σ :=
  fun fr rest h => ⟨[], by simp [h], Eq.refl _⟩

theorem TrailRestores_trans {σ₁ σ₂ σ₃ : Sub} (h12 : TrailRestores σ₁ σ₂)
    (h23 : TrailRestores σ₂ σ₃) : TrailRestores σ₁ σ₃ := by
  intro fr rest h1
  obtain ⟨g₁, htr₁, hu₁⟩ := h12 fr rest h1
  obtain ⟨g₂, htr₂, hu₂⟩ := h23 (fr ++ g₁) rest htr₁
  refine ⟨g₁ ++ g₂, ?_, ?_⟩
  · rw [htr₂, List.append_assoc]
  · rw [undoFrame_append, hu₂, hu₁]

/-- The binding step of `union` (record a `(v, old, new)` triple, then
write the link) restores on undo. -/
theorem bind_restores {σ : Sub} {k : VKey} {old w : PTerm}
    (hk : lookupP σ.parent k = some old) :
    TrailRestores σ { recordEntry σ (.set k old w) with
      parent := insertP (recordEntry σ (.set k old w)).parent k w } := by
  intro fr rest h1
  refine ⟨[.set k old w], ?_, ?_⟩
  · exact recordEntry_trail_cons h1 _
  · show undoFrame [Entry.set k old w]
      (insertP (recordEntry σ (Entry.set k old w)).parent k w) = σ.parent
    rw [recordEntry_parent]
    simp only [undoFrame, List.foldr, undoEntry]
    exact insertP_insertP_cancel _ _ _ _ hk

/-- The worklist loop of `union` only appends entries to the frame the
call pushed, and undoing them restores the parent map — whether the
loop succeeds or fails. -/
theorem unionLoop_restores : ∀ n σ eqs b σ',
    unionLoop n σ eqs = some (b, σ') → TrailRestores σ σ' := by
  intro n
  induction n with
  | zero => intro σ eqs b σ' h; simp [unionLoop] at h
  | succ n ih =>
      intro σ eqs b σ' h
      cases eqs with
      | nil =>
          simp only [unionLoop] at h
          obtain ⟨_, h2⟩ := Prod.mk.injEq .. ▸ Option.some.inj h
          exact h2 ▸ TrailRestores_refl σ
      | cons pr rest =>
          obtain ⟨s, t⟩ := pr
          simp only [unionLoop] at h
          cases hf : findF n σ s true with
          | none => rw [hf] at h; cases h
          | some pr₁ =>
              obtain ⟨s', σ₁⟩ := pr₁
              rw [hf] at h; dsimp only at h
              have hres₁ := (findF_substep hf).2.1
              cases hg : findF n σ₁ t true with
              | none => rw [hg] at h; cases h
              | some pr₂ =>
                  obtain ⟨t', σ₂⟩ := pr₂
                  rw [hg] at h; dsimp only at h
                  have hres₂ := TrailRestores_trans hres₁ (findF_substep hg).2.1
                  by_cases hp : PTerm.peq s' t' = true
                  · rw [if_pos hp] at h
                    exact TrailRestores_trans hres₂ (ih σ₂ rest b σ' h)
                  · rw [if_neg hp] at h
                    cases s' with
                    | var a b' =>
                        dsimp only at h
                        cases ho : occursCheckF n σ₂ (.var a b') t' with
                        | none => rw [ho] at h; cases h
                        | some pr₃ =>
                            obtain ⟨occ, σ₃⟩ := pr₃
                            rw [ho] at h
                            have hres₃ :=
                              TrailRestores_trans hres₂
                                ((occurs_substepK n).1 _ _ _ _ _ ho).1.2.1
                            cases occ with
                            | true =>
                                dsimp only at h
                                obtain ⟨_, h2⟩ := Prod.mk.injEq .. ▸
                                  Option.some.inj h
                                exact h2 ▸ hres₃
                            | false =>
                                dsimp only at h
                                cases hk : lookupP σ₃.parent (a, b') with
                                | none => rw [hk] at h; cases h
                                | some old =>
                                    rw [hk] at h; dsimp only at h
                                    exact TrailRestores_trans (TrailRestores_trans
                                      hres₃ (bind_restores hk)) (ih _ rest b σ' h)
                    | func f as q =>
                        cases t' with
                        | var a b' =>
                            dsimp only at h
                            cases ho : occursCheckF n σ₂ (.var a b')
                                (.func f as q) with
                            | none => rw [ho] at h; cases h
                            | some pr₃ =>
                                obtain ⟨occ, σ₃⟩ := pr₃
                                rw [ho] at h
                                have hres₃ :=
                                  TrailRestores_trans hres₂
                                    ((occurs_substepK n).1 _ _ _ _ _ ho).1.2.1
                                cases occ with
                                | true =>
                                    dsimp only at h
                                    obtain ⟨_, h2⟩ := Prod.mk.injEq .. ▸
                                      Option.some.inj h
                                    exact h2 ▸ hres₃
                                | false =>
                                    dsimp only at h
                                    cases hk : lookupP σ₃.parent (a, b') with
                                    | none => rw [hk] at h; cases h
                                    | some old =>
                                        rw [hk] at h; dsimp only at h
                                        exact TrailRestores_trans (TrailRestores_trans
                                          hres₃ (bind_restores hk))
                                          (ih _ rest b σ' h)
                        | func g bs q' =>
                            dsimp only at h
                            by_cases hm : (f ≠ g ∨ as.length ≠ bs.length)
                            · rw [if_pos hm] at h
                              obtain ⟨_, h2⟩ := Prod.mk.injEq .. ▸
                                Option.some.inj h
                              exact h2 ▸ hres₂
                            · rw [if_neg hm] at h
                              exact TrailRestores_trans hres₂ (ih σ₂ _ b σ' h)

/-- `union` pushes one frame; everything it recorded undoes its
writes. -/
theorem union_restores {fuel : Nat} {σ : Sub} {s t : PTerm} {b : Bool}
    {σ' : Sub} (h : Sub.union fuel σ s t = some (b, σ')) :
    ∃ g, σ'.trail = g :: σ.trail ∧ undoFrame g σ'.parent = σ.parent := by
  have := unionLoop_restores fuel { σ with trail := [] :: σ.trail }
    [(s, t)] b σ' h [] σ.trail rfl
  simpa using this

theorem backtrack_after_union {fuel : Nat} {σ : Sub} {s t : PTerm}
    {b : Bool} {σ' : Sub} (h : Sub.union fuel σ s t = some (b, σ')) :
    Sub.backtrack σ' = some σ := by
  obtain ⟨g, htr, hu⟩ := union_restores h
  unfold Sub.backtrack
  rw [htr]
  dsimp only
  rw [hu]

/-- `can_unify` always hands back the substitution it started from. -/
theorem canUnify_spec {fuel : Nat} {σ : Sub} {s t : PTerm} {b : Bool}
    {f : List Entry} {σ'' : Sub}
    (h : Sub.canUnify fuel σ s t = some (b, f, σ'')) :
    σ'' = σ ∧ ∃ σ', Sub.union fuel σ s t = some (b, σ') ∧
      f = σ'.trail.headD [] := by
  unfold Sub.canUnify Sub.unify at h
  cases hu : Sub.union fuel σ s t with
  | none => rw [hu] at h; cases h
  | some pr =>
      obtain ⟨b', σ'⟩ := pr
      rw [hu] at h; dsimp only at h
      have hb := backtrack_after_union hu
      rw [hb] at h; dsimp only at h
      obtain ⟨h1, h2⟩ := Prod.mk.injEq .. ▸ Option.some.inj h
      obtain ⟨h2a, h2b⟩ := Prod.mk.injEq .. ▸ h2
      subst h1
      exact ⟨h2b.symm, σ', Eq.refl _, h2a.symm⟩

/-! ## Equality modulo substitution, as a pure relation -/

mutual

theorem peq_symm : ∀ a b : PTerm, PTerm.peq a b = PTerm.peq b a
  | .var _ _, .var _ _ => by
      simp only [PTerm.peq]
      rw [Bool.eq_iff_iff, Bool.and_eq_true, Bool.and_eq_true,
        beq_iff_eq, beq_iff_eq, beq_iff_eq, beq_iff_eq]
      constructor <;> rintro ⟨h1, h2⟩ <;> exact ⟨h1.symm, h2.symm⟩
  | .var _ _, .func _ _ _ => by simp [PTerm.peq]
  | .func _ _ _, .var _ _ => by simp [PTerm.peq]
  | .func _ as _, .func _ bs _ => by
      simp only [PTerm.peq]
      rw [peqList_symm as bs, Bool.eq_iff_iff, Bool.and_eq_true,
        Bool.and_eq_true, beq_iff_eq, beq_iff_eq]
      constructor <;> rintro ⟨h1, h2⟩ <;> exact ⟨h1.symm, h2⟩

theorem peqList_symm : ∀ as bs : List PTerm,
    PTerm.peq.peqList as bs = PTerm.peq.peqList bs as
  | [], [] => rfl
  | [], _ :: _ => rfl
  | _ :: _, [] => rfl
  | a :: as, b :: bs => by
      simp only [PTerm.peq.peqList]
      rw [peq_symm a b, peqList_symm as bs]

end

/-- `EqModP` only depends on the representative structure, so any
root-preserving rewrite of the parent map preserves it. -/
theorem EqModP_transfer {p p' : Parent}
    (hiff : ∀ v x, rootOf p v x ↔ rootOf p' v x) :
    ∀ {a b}, EqModP p a b → EqModP p' a b := by
  intro a b h
  induction h with
  | of_root h1 h2 h3 => exact .of_root ((hiff _ _).mp h1) ((hiff _ _).mp h2) h3
  | of_args h1 h2 h3 h4 _ ih =>
      exact .of_args ((hiff _ _).mp h1) ((hiff _ _).mp h2) h3 h4
        fun pr hpr => ih pr hpr

theorem rootF_desc_mem : ∀ n p u a b, rootF n p u = some (.var a b) →
    ∃ l, descF n p u = some l ∧ (a, b) ∈ l := by
  intro n
  induction n with
  | zero => intro p u a b h; simp [rootF] at h
  | succ n ih =>
      intro p u a b h
      cases u with
      | func f as q => simp [rootF] at h
      | var s c =>
          cases hl : lookupP p (s, c) with
          | none =>
              rw [rootF_var_none hl] at h
              obtain ⟨ha, hb⟩ := PTerm.var.injEq .. ▸ Option.some.inj h
              exact ⟨[(s, c)], descF_var_none hl, by simp [ha, hb]⟩
          | some pt =>
              by_cases hpeq : PTerm.peq pt (.var s c) = true
              · rw [rootF_var_loop hl hpeq] at h
                have hsh := peq_var_shape hpeq
                rw [hsh] at h
                obtain ⟨ha, hb⟩ := PTerm.var.injEq .. ▸ Option.some.inj h
                exact ⟨[(s, c)], descF_var_loop hl hpeq, by simp [ha, hb]⟩
              · rw [rootF_var_step hl hpeq] at h
                obtain ⟨l₀, hd₀, hmem⟩ := ih p pt a b h
                refine ⟨(s, c) :: l₀, ?_, List.mem_cons_of_mem _ hmem⟩
                rw [descF_var_step hl hpeq, hd₀]
                rfl

/-- A variable that is its own representative is terminal (unmapped or
self-looped): a longer chain coming back to it would be a cycle. -/
theorem rootOf_var_self_terminal {p : Parent} {a : String} {b : Nat}
    (h : rootOf p (.var a b) (.var a b)) : isTerminalP p (.var a b) := by
  obtain ⟨n, hn⟩ := h
  cases n with
  | zero => simp [rootF] at hn
  | succ n =>
      cases hl : lookupP p (a, b) with
      | none => exact Or.inl hl
      | some pt =>
          by_cases hpeq : PTerm.peq pt (.var a b) = true
          · exact Or.inr ⟨pt, hl, hpeq⟩
          · rw [rootF_var_step hl hpeq] at hn
            obtain ⟨l, hd, hmem⟩ := rootF_desc_mem n p pt a b hn
            exact absurd hmem (desc_no_revisit hl hpeq hd)

/-- Descents whose representative is not the (self-looped) key `k`
never visit `k`, so inserting at `k` does not disturb them. -/
theorem root_avoid_selfloop_insert {p : Parent} {k : VKey} {o w : PTerm}
    (hko : lookupP p k = some o)
    (hpeq : PTerm.peq o (.var k.1 k.2) = true) :
    ∀ u x, rootOf p u x → x ≠ .var k.1 k.2 → rootOf (insertP p k w) u x := by
  intro u x hu hx
  obtain ⟨n, hn⟩ := hu
  induction n generalizing u with
  | zero => simp [rootF] at hn
  | succ n ih =>
      cases u with
      | func f as q =>
          simp [rootF] at hn
          exact ⟨1, by simp [rootF, hn]⟩
      | var s c =>
          by_cases hk : ((s, c) : VKey) = k
          · -- at `k` the descent stops with the self-loop value = `var k`
            subst hk
            rw [rootF_var_loop hko hpeq] at hn
            cases hn
            exact absurd (peq_var_shape hpeq) hx
          · cases hl : lookupP p (s, c) with
            | none =>
                rw [rootF_var_none hl] at hn
                cases hn
                exact ⟨1, rootF_var_none (by
                  rw [lookupP_insertP_ne _ _ _ _ hk, hl])⟩
            | some pt =>
                by_cases hpq : PTerm.peq pt (.var s c) = true
                · rw [rootF_var_loop hl hpq] at hn
                  cases hn
                  exact ⟨1, rootF_var_loop (by
                    rw [lookupP_insertP_ne _ _ _ _ hk, hl]) hpq⟩
                · rw [rootF_var_step hl hpq] at hn
                  obtain ⟨m, hm⟩ := ih pt hn
                  refine ⟨m + 1, ?_⟩
                  rw [rootF_var_step (by
                    rw [lookupP_insertP_ne _ _ _ _ hk, hl]) hpq]
                  exact hm

/-- Descents that end at the self-looped key `k` continue, after the
binding insert `k ↦ w`, to the terminal `w`. -/
theorem root_reach_selfloop_insert {p : Parent} {k : VKey} {o w : PTerm}
    (hko : lookupP p k = some o)
    (hpeq : PTerm.peq o (.var k.1 k.2) = true)
    (hwterm : isTerminalP p w)
    (hwk : ¬ PTerm.peq w (.var k.1 k.2) = true) :
    ∀ u, rootOf p u (.var k.1 k.2) → rootOf (insertP p k w) u w := by
  have hw' : rootOf (insertP p k w) w w := by
    cases w with
    | func f as q => exact ⟨1, by simp [rootF]⟩
    | var a b =>
        have hk : ((a, b) : VKey) ≠ k := by
          intro he
          apply hwk
          rw [← he]
          exact PTerm.peq_refl _
        simp only [isTerminalP] at hwterm
        rcases hwterm with h0 | ⟨o', ho', hpq⟩
        · exact ⟨1, rootF_var_none (by
            rw [lookupP_insertP_ne _ _ _ _ hk, h0])⟩
        · refine ⟨1, ?_⟩
          rw [rootF_var_loop (by
            rw [lookupP_insertP_ne _ _ _ _ hk, ho']) hpq]
          rw [peq_var_shape hpq]
  have hself : rootOf (insertP p k w) (.var k.1 k.2) w := by
    obtain ⟨m, hm⟩ := hw'
    refine ⟨m + 1, ?_⟩
    rw [rootF_var_step (lookupP_insertP_self p k w) hwk]
    exact hm
  intro u hu
  obtain ⟨n, hn⟩ := hu
  induction n generalizing u with
  | zero => simp [rootF] at hn
  | succ n ih =>
      cases u with
      | func f as q => simp [rootF] at hn
      | var s c =>
          by_cases hk : ((s, c) : VKey) = k
          · subst hk
            exact hself
          · cases hl : lookupP p (s, c) with
            | none =>
                rw [rootF_var_none hl] at hn
                have hke : ((s, c) : VKey) = k := by
                  obtain ⟨ha, hb⟩ := PTerm.var.injEq .. ▸ Option.some.inj hn
                  rw [ha, hb]
                exact absurd hke hk
            | some pt =>
                by_cases hpq : PTerm.peq pt (.var s c) = true
                · rw [rootF_var_loop hl hpq] at hn
                  have hsh := peq_var_shape hpq
                  rw [hsh] at hn
                  have hke : ((s, c) : VKey) = k := by
                    obtain ⟨ha, hb⟩ := PTerm.var.injEq .. ▸ Option.some.inj hn
                    rw [ha, hb]
                  exact absurd hke hk
                · rw [rootF_var_step hl hpq] at hn
                  obtain ⟨m, hm⟩ := ih pt hn
                  refine ⟨m + 1, ?_⟩
                  rw [rootF_var_step (by
                    rw [lookupP_insertP_ne _ _ _ _ hk, hl]) hpq]
                  exact hm

/-- Binding a self-looped root variable `k` to a term `w` that is
equal to it modulo the substitution preserves `EqModP`: this is the
only way `union` ever binds while processing pairs that `equal`
already accepted. -/
theorem EqModP_bind {p : Parent} {k : VKey} {o w : PTerm}
    (hko : lookupP p k = some o)
    (hpeq : PTerm.peq o (.var k.1 k.2) = true)
    (hwterm : isTerminalP p w)
    (hwk : ¬ PTerm.peq w (.var k.1 k.2) = true)
    (hEq : EqModP p (.var k.1 k.2) w) :
    ∀ a b, EqModP p a b → EqModP (insertP p k w) a b := by
  have hk_self : rootOf p (.var k.1 k.2) (.var k.1 k.2) := by
    refine ⟨1, ?_⟩
    have h1 : rootF 1 p (.var k.1 k.2) = some o := rootF_var_loop hko hpeq
    rw [h1, peq_var_shape hpeq]
  have hw_self : rootOf p w w := terminal_rootOf hwterm
  have hreach := root_reach_selfloop_insert hko hpeq hwterm hwk
  have havoid := root_avoid_selfloop_insert (w := w) hko hpeq
  have hw_sym_args : w.symbol = (PTerm.var k.1 k.2).symbol ∧ w.args = [] := by
    cases hEq with
    | of_root h1 h2 h3 =>
        have e1 := rootOf_det h1 hk_self
        have e2 := rootOf_det h2 hw_self
        rw [e1, e2, peq_symm] at h3
        exact absurd h3 hwk
    | of_args h1 h2 h3 h4 h5 =>
        have e1 := rootOf_det h1 hk_self
        have e2 := rootOf_det h2 hw_self
        rw [e1, e2] at h3 h4
        refine ⟨h3.symm, ?_⟩
        have h4' : w.args.length = 0 := by simpa [PTerm.args] using h4.symm
        exact List.length_eq_zero.mp h4'
  intro a b h
  induction h with
  | @of_root s t x y h1 h2 h3 =>
      by_cases hx : x = PTerm.var k.1 k.2 <;>
        by_cases hy : y = PTerm.var k.1 k.2
      · subst hx; subst hy
        exact .of_root (hreach s h1) (hreach t h2) (PTerm.peq_refl w)
      · subst hx
        exact absurd (peq_var_shape' h3) hy
      · subst hy
        exact absurd (peq_var_shape h3) hx
      · exact .of_root (havoid s x h1 hx) (havoid t y h2 hy) h3
  | @of_args s t x y h1 h2 h3 h4 h5 ih =>
      by_cases hx : x = PTerm.var k.1 k.2 <;>
        by_cases hy : y = PTerm.var k.1 k.2
      · subst hx; subst hy
        exact .of_root (hreach s h1) (hreach t h2) (PTerm.peq_refl w)
      · subst hx
        have hy0 : y.args = [] := by
          have : y.args.length = 0 := by simpa [PTerm.args] using h4.symm
          exact List.length_eq_zero.mp this
        refine .of_args (hreach s h1) (havoid t y h2 hy) ?_ ?_ ?_
        · rw [hw_sym_args.1]; exact h3
        · rw [hw_sym_args.2, hy0]
        · rw [hw_sym_args.2]; simp
      · subst hy
        have hx0 : x.args = [] := by
          have : x.args.length = 0 := by simpa [PTerm.args] using h4
          exact List.length_eq_zero.mp this
        refine .of_args (havoid s x h1 hx) (hreach t h2) ?_ ?_ ?_
        · rw [hw_sym_args.1]; exact h3 ▸ rfl
        · rw [hw_sym_args.2, hx0]
        · rw [hx0]; simp
      · exact .of_args (havoid s x h1 hx) (havoid t y h2 hy) h3 h4
          fun pr hpr => ih pr hpr

/-- A term that is its own representative is terminal. -/
theorem rootOf_self_terminal {p : Parent} {w : PTerm}
    (h : rootOf p w w) : isTerminalP p w := by
  cases w with
  | func f as q => trivial
  | var a b => exact rootOf_var_self_terminal h

/-- `equal` returning true establishes the pure relation on the
original map (its own path compressions do not change any root). -/
theorem equalF_eqmod : ∀ n,
    (∀ σ s t σ₂, equalF n σ s t = some (true, σ₂) → EqModP σ.parent s t) ∧
    (∀ σ prs σ₂, equalAllF n σ prs = some (true, σ₂) →
      ∀ pr ∈ prs, EqModP σ.parent pr.1 pr.2) := by
  intro n
  induction n with
  | zero =>
      constructor
      · intro σ s t σ₂ h; simp [equalF] at h
      · intro σ prs σ₂ h; simp [equalAllF] at h
  | succ n ih =>
      constructor
      · intro σ s t σ₂ h
        simp only [equalF] at h
        cases hf : findF n σ s false with
        | none => rw [hf] at h; cases h
        | some pr =>
            obtain ⟨s', σ₁⟩ := pr
            rw [hf] at h; dsimp only at h
            cases hg : findF n σ₁ t false with
            | none => rw [hg] at h; cases h
            | some pr₂ =>
                obtain ⟨t', σ₂'⟩ := pr₂
                rw [hg] at h; dsimp only at h
                have hrs : rootOf σ.parent s s' :=
                  ⟨n, (findF_spec n σ s false s' σ₁ hf).1⟩
                have hiff1 := (findF_substep hf).1
                have hrt : rootOf σ.parent t t' :=
                  (hiff1 _ _).mpr ⟨n, (findF_spec n σ₁ t false t' σ₂' hg).1⟩
                by_cases hp : PTerm.peq s' t' = true
                · exact .of_root hrs hrt hp
                · rw [if_neg hp] at h
                  by_cases hsym : (s'.symbol == t'.symbol
                      && s'.args.length == t'.args.length) = true
                  · rw [if_pos hsym] at h
                    have hpairs := (ih.2) σ₂' (s'.args.zip t'.args) σ₂ h
                    have hiff02 : ∀ v x, rootOf σ.parent v x ↔
                        rootOf σ₂'.parent v x := fun v x =>
                      (hiff1 v x).trans ((findF_substep hg).1 v x)
                    obtain ⟨h1, h2⟩ := Bool.and_eq_true .. ▸ hsym
                    exact .of_args hrs hrt (beq_iff_eq.mp h1)
                      (beq_iff_eq.mp h2)
                      fun pr hpr => EqModP_transfer
                        (fun v x => (hiff02 v x).symm) (hpairs pr hpr)
                  · rw [if_neg hsym] at h
                    cases h
      · intro σ prs σ₂ h
        cases prs with
        | nil => intro pr hpr; simp at hpr
        | cons pr₀ rest =>
            obtain ⟨a₀, b₀⟩ := pr₀
            simp only [equalAllF] at h
            cases hc : equalF n σ a₀ b₀ with
            | none => rw [hc] at h; cases h
            | some pr₁ =>
                obtain ⟨bb, σ₁⟩ := pr₁
                rw [hc] at h
                cases bb with
                | false => dsimp only at h; cases h
                | true =>
                    dsimp only at h
                    intro pr hpr
                    rcases List.mem_cons.mp hpr with rfl | hpr0
                    · exact ih.1 σ a₀ b₀ σ₁ hc
                    · have hiff := ((equal_substepK n).1 σ a₀ b₀ true σ₁ hc).1.1
                      exact EqModP_transfer (fun v x => (hiff v x).symm)
                        (ih.2 σ₁ rest σ₂ h pr hpr0)

/-- `occurs_check(v, w)` on a terminal, argument-free `w` that is not
Python-equal to `v` reports no occurrence. -/
theorem occurs_terminal_noargs {n : Nat} {σ : Sub} {v w : PTerm}
    {b : Bool} {σ' : Sub} (hterm : isTerminalP σ.parent w)
    (hargs : w.args = []) (hpv : ¬ PTerm.peq v w = true)
    (h : occursCheckF n σ v w = some (b, σ')) : b = false := by
  cases n with
  | zero => simp [occursCheckF] at h
  | succ n =>
      simp only [occursCheckF] at h
      cases hf : findF n σ w false with
      | none => rw [hf] at h; cases h
      | some pr =>
          obtain ⟨root, σ₁⟩ := pr
          rw [hf] at h; dsimp only at h
          have hroot : root = w :=
            rootOf_det ⟨n, (findF_spec n σ w false root σ₁ hf).1⟩
              (terminal_rootOf hterm)
          rw [hroot] at h
          rw [if_neg hpv] at h
          rw [hargs] at h
          cases n with
          | zero => simp [occursAnyF] at h
          | succ m =>
              simp only [occursAnyF] at h
              obtain ⟨h1, _⟩ := Prod.mk.injEq .. ▸ Option.some.inj h
              exact h1.symm

/-- When every pending pair is already equal modulo the substitution,
the `union` worklist loop can only answer true: roots coincide or the
loop binds a variable root to an equal term, and the occurs check can
never fire. -/
theorem unionLoop_success : ∀ n σ eqs b σ',
    (∀ pr ∈ eqs, EqModP σ.parent pr.1 pr.2) →
    unionLoop n σ eqs = some (b, σ') → b = true := by
  intro n
  induction n with
  | zero => intro σ eqs b σ' _ h; simp [unionLoop] at h
  | succ n ih =>
      intro σ eqs b σ' hEqs h
      cases eqs with
      | nil =>
          simp only [unionLoop] at h
          obtain ⟨h1, _⟩ := Prod.mk.injEq .. ▸ Option.some.inj h
          exact h1.symm
      | cons pr rest =>
          obtain ⟨s, t⟩ := pr
          simp only [unionLoop] at h
          cases hf : findF n σ s true with
          | none => rw [hf] at h; cases h
          | some pr₁ =>
              obtain ⟨s', σ₁⟩ := pr₁
              rw [hf] at h; dsimp only at h
              cases hg : findF n σ₁ t true with
              | none => rw [hg] at h; cases h
              | some pr₂ =>
                  obtain ⟨t', σ₂⟩ := pr₂
                  rw [hg] at h; dsimp only at h
                  have hiff1 := (findF_substep hf).1
                  have hiff2 := (findF_substep hg).1
                  have hiff02 : RootIff σ σ₂ := fun v x =>
                    (hiff1 v x).trans (hiff2 v x)
                  have hrs : rootOf σ₂.parent s s' :=
                    (hiff02 s s').mp ⟨n, (findF_spec n σ s true s' σ₁ hf).1⟩
                  have hrt : rootOf σ₂.parent t t' :=
                    (hiff2 t t').mp ⟨n, (findF_spec n σ₁ t true t' σ₂ hg).1⟩
                  have hE2 : EqModP σ₂.parent s t :=
                    EqModP_transfer hiff02 (hEqs (s, t) (List.mem_cons_self _ _))
                  have hrest2 : ∀ pr ∈ rest, EqModP σ₂.parent pr.1 pr.2 :=
                    fun pr hpr => EqModP_transfer hiff02
                      (hEqs pr (List.mem_cons_of_mem _ hpr))
                  by_cases hp : PTerm.peq s' t' = true
                  · rw [if_pos hp] at h
                    exact ih σ₂ rest b σ' hrest2 h
                  · rw [if_neg hp] at h
                    -- invert the pure-equality derivation at the roots
                    have hfacts : s'.symbol = t'.symbol ∧
                        s'.args.length = t'.args.length ∧
                        (∀ pr ∈ s'.args.zip t'.args,
                          EqModP σ₂.parent pr.1 pr.2) := by
                      cases hE2 with
                      | of_root h1 h2 h3 =>
                          rw [rootOf_det h1 hrs, rootOf_det h2 hrt] at h3
                          exact absurd h3 hp
                      | of_args h1 h2 h3 h4 h5 =>
                          rw [rootOf_det h1 hrs] at h3 h4 h5
                          rw [rootOf_det h2 hrt] at h3 h4 h5
                          exact ⟨h3, h4, h5⟩
                    obtain ⟨hsym, hlen, hprs⟩ := hfacts
                    have htterm : isTerminalP σ₂.parent t' :=
                      rootOf_terminal hrt
                    have hsterm : isTerminalP σ₂.parent s' :=
                      rootOf_terminal hrs
                    cases hs' : s' with
                    | var a b' =>
                        subst hs'
                        dsimp only at h
                        -- the loop binds the self-looped root (a, b') to t'
                        have hargs0 : t'.args = [] :=
                          List.length_eq_zero.mp
                            (by simpa [PTerm.args] using hlen.symm)
                        cases ho : occursCheckF n σ₂ (.var a b') t' with
                        | none => rw [ho] at h; cases h
                        | some pr₃ =>
                            obtain ⟨occ, σ₃⟩ := pr₃
                            rw [ho] at h
                            have hocc : occ = false :=
                              occurs_terminal_noargs htterm hargs0 hp ho
                            subst hocc
                            dsimp only at h
                            -- the bound variable is self-looped
                            have hself2 : ∃ o, lookupP σ₂.parent (a, b') =
                                some o ∧ PTerm.peq o (.var a b') = true := by
                              obtain ⟨o, ho₁, hpo⟩ :=
                                (findF_spec n σ s true _ σ₁ hf).2.2.2.2.2.2
                                  rfl a b' rfl
                              exact ⟨o, (findF_spec n σ₁ t true t' σ₂
                                hg).2.2.2.2.2.1 (a, b') o ho₁ hpo, hpo⟩
                            obtain ⟨o, ho₂, hpo⟩ := hself2
                            have hiff3 :=
                              ((occurs_substepK n).1 σ₂ _ _ _ _ ho).1.1
                            have hself3 : lookupP σ₃.parent (a, b') = some o :=
                              ((occurs_substepK n).1 σ₂ _ _ _ _ ho).1.2.2
                                (a, b') o ho₂ hpo
                            cases hk : lookupP σ₃.parent (a, b') with
                            | none => rw [hk] at h; cases h
                            | some old =>
                                rw [hk] at h; dsimp only at h
                                have hrt3 : rootOf σ₃.parent t' t' :=
                                  (hiff3 _ _).mp (terminal_rootOf htterm)
                                have htterm3 := rootOf_self_terminal hrt3
                                have hwk3 : ¬ PTerm.peq t' (.var a b') = true := by
                                  rw [peq_symm]
                                  exact hp
                                have hEkw : EqModP σ₃.parent (.var a b') t' := by
                                  refine .of_args ⟨1, ?_⟩ hrt3 hsym hlen ?_
                                  · rw [rootF_var_loop hself3 hpo,
                                      peq_var_shape hpo]
                                  · intro pr hpr
                                    rw [hargs0] at hpr
                                    simp [PTerm.args] at hpr
                                have hbind := EqModP_bind hself3 hpo htterm3
                                  hwk3 hEkw
                                refine ih _ rest b σ' ?_ h
                                intro pr hpr
                                show EqModP (insertP (recordEntry σ₃
                                  (.set (a, b') old t')).parent (a, b') t')
                                  pr.1 pr.2
                                rw [recordEntry_parent]
                                exact hbind pr.1 pr.2
                                  (EqModP_transfer hiff3 (hrest2 pr hpr))
                    | func f as q =>
                        subst hs'
                        cases ht' : t' with
                        | var c d =>
                            subst ht'
                            dsimp only at h
                            have hargs0 : as = [] :=
                              List.length_eq_zero.mp
                                (by simpa [PTerm.args] using hlen)
                            cases ho : occursCheckF n σ₂ (.var c d)
                                (.func f as q) with
                            | none => rw [ho] at h; cases h
                            | some pr₃ =>
                                obtain ⟨occ, σ₃⟩ := pr₃
                                rw [ho] at h
                                have hocc : occ = false := by
                                  refine occurs_terminal_noargs hsterm
                                    (by simpa [PTerm.args] using hargs0) ?_ ho
                                  rw [peq_symm]
                                  exact hp
                                subst hocc
                                dsimp only at h
                                have hself2 : ∃ o, lookupP σ₂.parent (c, d) =
                                    some o ∧ PTerm.peq o (.var c d) = true := by
                                  obtain ⟨o, ho₁, hpo⟩ :=
                                    (findF_spec n σ₁ t true _ σ₂
                                      hg).2.2.2.2.2.2 rfl c d rfl
                                  exact ⟨o, ho₁, hpo⟩
                                obtain ⟨o, ho₂, hpo⟩ := hself2
                                have hiff3 :=
                                  ((occurs_substepK n).1 σ₂ _ _ _ _ ho).1.1
                                have hself3 : lookupP σ₃.parent (c, d) = some o :=
                                  ((occurs_substepK n).1 σ₂ _ _ _ _ ho).1.2.2
                                    (c, d) o ho₂ hpo
                                cases hk : lookupP σ₃.parent (c, d) with
                                | none => rw [hk] at h; cases h
                                | some old =>
                                    rw [hk] at h; dsimp only at h
                                    have hrs3 : rootOf σ₃.parent
                                        (.func f as q) (.func f as q) :=
                                      (hiff3 _ _).mp (terminal_rootOf hsterm)
                                    have hwk3 : ¬ PTerm.peq (.func f as q)
                                        (.var c d) = true := hp
                                    have hEkw : EqModP σ₃.parent (.var c d)
                                        (.func f as q) := by
                                      refine .of_args ⟨1, ?_⟩ hrs3
                                        hsym.symm ?_ ?_
                                      · rw [rootF_var_loop hself3 hpo,
                                          peq_var_shape hpo]
                                      · simp [PTerm.args, hargs0]
                                      · intro pr hpr
                                        simp [PTerm.args, hargs0] at hpr
                                    have hbind := EqModP_bind hself3 hpo
                                      (rootOf_self_terminal hrs3) hwk3 hEkw
                                    refine ih _ rest b σ' ?_ h
                                    intro pr hpr
                                    show EqModP (insertP (recordEntry σ₃
                                      (.set (c, d) old (.func f as q))).parent
                                      (c, d) (.func f as q)) pr.1 pr.2
                                    rw [recordEntry_parent]
                                    exact hbind pr.1 pr.2
                                      (EqModP_transfer hiff3 (hrest2 pr hpr))
                        | func g bs q' =>
                            subst ht'
                            dsimp only at h
                            have hfg : ¬ (f ≠ g ∨ as.length ≠ bs.length) := by
                              push_neg
                              refine ⟨hsym, ?_⟩
                              simpa [PTerm.args] using hlen
                            rw [if_neg hfg] at h
                            refine ih σ₂ _ b σ' ?_ h
                            intro pr hpr
                            rcases List.mem_append.mp hpr with hz | hr
                            · exact hprs pr (List.mem_reverse.mp hz)
                            · exact hrest2 pr hr


/-! ## Claim theorems -/

/-- C1: for every substitution state and all terms `s`, `t`, if
`union(s, t)` returns false (in particular on an occurs-check cycle
such as unioning `X` with `f(X)`), the trail frame pushed by that
`union` call is left on the trail, and one subsequent `backtrack()`
restores the substitution — parent map and trail — to exactly its
state before the `union` call. -/
theorem claim_C1_union_false_frame_left_backtrack_restores :
    ∀ (fuel : Nat) (σ : Sub) (s t : PTerm) (σ' : Sub),
      Sub.union fuel σ s t = some (false, σ') →
      (∃ g, σ'.trail = g :: σ.trail) ∧ Sub.backtrack σ' = some σ := by
  intro fuel σ s t σ' h
  obtain ⟨g, htr, _⟩ := union_restores h
  exact ⟨⟨g, htr⟩, backtrack_after_union h⟩

/-- Witness for C1 at the occurs-check example `union(X, f(X))`. -/
theorem claim_C1_witness :
    Sub.union 20 Sub.empty (.var "X" 0) (.func "f" [.var "X" 0] none) =
      some (false, ⟨[(("X", 0), .var "X" 0)], [[.ins ("X", 0)]]⟩) ∧
    ((∃ g, ([[Entry.ins ("X", 0)]] : List (List Entry)) =
        g :: Sub.empty.trail) ∧
      Sub.backtrack ⟨[(("X", 0), .var "X" 0)], [[.ins ("X", 0)]]⟩ =
        some Sub.empty) :=
  ⟨rfl, claim_C1_union_false_frame_left_backtrack_restores
    20 Sub.empty (.var "X" 0) (.func "f" [.var "X" 0] none)
    ⟨[(("X", 0), .var "X" 0)], [[.ins ("X", 0)]]⟩ rfl⟩

/-- C10: the read-only substitution operations (`find` with
`add=False`, `occurs_check`, `equal`, and application `__call__`)
never add a variable to or remove one from the parent map, and never
change any term's representative — even though path compression may
rewrite intermediate parent links. -/
theorem claim_C10_readonly_ops_preserve_keys_and_roots :
    ∀ (n : Nat) (σ : Sub),
      (∀ t r σ', findF n σ t false = some (r, σ') →
        σ'.parent.map Prod.fst = σ.parent.map Prod.fst ∧
        (∀ v x, rootOf σ.parent v x ↔ rootOf σ'.parent v x)) ∧
      (∀ v t b σ', occursCheckF n σ v t = some (b, σ') →
        σ'.parent.map Prod.fst = σ.parent.map Prod.fst ∧
        (∀ v' x, rootOf σ.parent v' x ↔ rootOf σ'.parent v' x)) ∧
      (∀ s t b σ', equalF n σ s t = some (b, σ') →
        σ'.parent.map Prod.fst = σ.parent.map Prod.fst ∧
        (∀ v x, rootOf σ.parent v x ↔ rootOf σ'.parent v x)) ∧
      (∀ t r σ', applyF n σ t = some (r, σ') →
        σ'.parent.map Prod.fst = σ.parent.map Prod.fst ∧
        (∀ v x, rootOf σ.parent v x ↔ rootOf σ'.parent v x)) := by
  intro n σ
  refine ⟨fun t r σ' h => ?_, fun v t b σ' h => ?_, fun s t b σ' h => ?_,
    fun t r σ' h => ?_⟩
  · have hs := findF_substepK h
    exact ⟨hs.2, hs.1.1⟩
  · have hs := (occurs_substepK n).1 σ v t b σ' h
    exact ⟨hs.2, hs.1.1⟩
  · have hs := (equal_substepK n).1 σ s t b σ' h
    exact ⟨hs.2, hs.1.1⟩
  · have hs := (apply_substepK n).1 σ t r σ' h
    exact ⟨hs.2, hs.1.1⟩

/-- Witness for C10: `equal(X, Z)` on the chain `X→Y→Z` compresses
`X`'s link yet preserves keys and representatives. -/
theorem claim_C10_witness :
    equalF 20 ⟨[(("X", 0), .var "Y" 0), (("Y", 0), .var "Z" 0)], []⟩
        (.var "X" 0) (.var "Z" 0) =
      some (true, ⟨[(("X", 0), .var "Z" 0), (("Y", 0), .var "Z" 0)],
        [[.set ("X", 0) (.var "Y" 0) (.var "Z" 0)]]⟩) ∧
    ((⟨[(("X", 0), .var "Z" 0), (("Y", 0), .var "Z" 0)],
        [[.set ("X", 0) (.var "Y" 0) (.var "Z" 0)]]⟩ : Sub).parent.map
          Prod.fst =
      (⟨[(("X", 0), .var "Y" 0), (("Y", 0), .var "Z" 0)], []⟩ :
        Sub).parent.map Prod.fst ∧
    (∀ v x, rootOf (⟨[(("X", 0), .var "Y" 0), (("Y", 0), .var "Z" 0)],
        []⟩ : Sub).parent v x ↔
      rootOf (⟨[(("X", 0), .var "Z" 0), (("Y", 0), .var "Z" 0)],
        [[.set ("X", 0) (.var "Y" 0) (.var "Z" 0)]]⟩ : Sub).parent v x)) :=
  ⟨rfl, (claim_C10_readonly_ops_preserve_keys_and_roots 20
    ⟨[(("X", 0), .var "Y" 0), (("Y", 0), .var "Z" 0)], []⟩).2.2.1
    (.var "X" 0) (.var "Z" 0) true
    ⟨[(("X", 0), .var "Z" 0), (("Y", 0), .var "Z" 0)],
      [[.set ("X", 0) (.var "Y" 0) (.var "Z" 0)]]⟩ rfl⟩

/-- C2 (amended): if `equal(s, t)` returns true then `can_unify(s, t)`
returns success and hands back the original substitution — but the
captured trail frame need not be empty: it may record first-time
insertions and path-compression rewrites. -/
theorem claim_C2_amended_equal_implies_can_unify :
    ∀ (n m : Nat) (σ : Sub) (s t : PTerm) (σ₂ : Sub) (b : Bool)
      (fr : List Entry) (σ'' : Sub),
      equalF n σ s t = some (true, σ₂) →
      Sub.canUnify m σ s t = some (b, fr, σ'') →
      b = true ∧ σ'' = σ := by
  intro n m σ s t σ₂ b fr σ'' h1 h2
  have hE : EqModP σ.parent s t := (equalF_eqmod n).1 σ s t σ₂ h1
  obtain ⟨hσ, σ', hu, _⟩ := canUnify_spec h2
  refine ⟨?_, hσ⟩
  refine unionLoop_success m { σ with trail := [] :: σ.trail } [(s, t)]
    b σ' ?_ hu
  intro pr hpr
  simp at hpr
  rw [hpr]
  exact hE

/-- Witness for the amended C2 at `s = t = Y` on the empty
substitution (the captured frame records the insertion of `Y`). -/
theorem claim_C2_witness :
    equalF 20 Sub.empty (.var "Y" 0) (.var "Y" 0) =
      some (true, Sub.empty) ∧
    Sub.canUnify 20 Sub.empty (.var "Y" 0) (.var "Y" 0) =
      some (true, [.ins ("Y", 0)], Sub.empty) ∧
    (true = true ∧ Sub.empty = Sub.empty) :=
  ⟨rfl, rfl, claim_C2_amended_equal_implies_can_unify 20 20 Sub.empty
    (.var "Y" 0) (.var "Y" 0) Sub.empty true [.ins ("Y", 0)] Sub.empty
    rfl rfl⟩

/-- C2 counterexample: on the empty substitution with `s = t = X`,
`equal(s, t)` returns true, yet `can_unify(s, t)` succeeds with a
NON-empty frame — it records the first-time insertion of `X` into the
parent map — refuting the claim's "empty trail frame". -/
theorem claim_C2_counterexample :
    equalF 20 Sub.empty (.var "X" 0) (.var "X" 0) =
      some (true, Sub.empty) ∧
    Sub.canUnify 20 Sub.empty (.var "X" 0) (.var "X" 0) =
      some (true, [.ins ("X", 0)], Sub.empty) ∧
    ([Entry.ins ("X", 0)] : List Entry) ≠ [] :=
  ⟨rfl, rfl, by simp⟩

/-! ## The engine claims -/

theorem getKV_setKV_self (info : List (String × String)) (k v : String) :
    getKV (setKV info k v) k = some v := by
  induction info with
  | nil => simp [setKV, getKV]
  | cons h t ih =>
      obtain ⟨k', v'⟩ := h
      by_cases hk : k' = k <;> simp [setKV, getKV, hk, ih]

/-- C9: `ConnectionEnv.step` on a state that is already terminal
returns the state itself with reward 1, done `true`, and the info
dict, without invoking `update_goal` — the tableau, substitution,
goal and proof sequence of the returned state are exactly those of
the input state, whatever the dispatched `update_goal` would do. -/
theorem claim_C9_step_on_terminal_state_is_identity
    (upd : SATState → StartA → SATState) (st : SATState) (a : StartA)
    (h : st.isTerminal = true) :
    envStep upd st a = (st, 1, true, [("status", st.info)]) := by
  simp [envStep, h]

theorem claim_C9_witness :
    envStep (fun s _ => s)
      ⟨⟨[], 0⟩, Sub.empty, STab.root, false, 1, [], true, [],
        ⟨true, false, 1, false, 2⟩⟩ { id := "st0" }
      = (⟨⟨[], 0⟩, Sub.empty, STab.root, false, 1, [], true, [],
          ⟨true, false, 1, false, 2⟩⟩, 1, true, [("status", [])]) :=
  claim_C9_step_on_terminal_state_is_identity (fun s _ => s)
    ⟨⟨[], 0⟩, Sub.empty, STab.root, false, 1, [], true, [],
      ⟨true, false, 1, false, 2⟩⟩ { id := "st0" } rfl

/-- C5 as the code actually behaves: when the matrix has no positive
clauses, `starts()` yields the lone `Start("st0")` whose
`clause_copy` is the **empty list** (the dataclass default), not
`None`; applying it therefore skips the `clause_copy is None` guard,
creates no children, and `theorem_or_next` finds no open goal and
terminates with status `"Theorem"` — not
`"Non-Theorem: no positive start clauses"` as claimed. -/
theorem claim_C5_lone_empty_start_ends_as_theorem (m : Matrix)
    (st : SATState) (hm : m.positiveClauses = []) :
    startsE m true = .ok ([{ id := "st0" }], m) ∧
    (updateGoalStart st { id := "st0" }).isTerminal = true ∧
    getKV (updateGoalStart st { id := "st0" }).info "status"
      = some "Theorem" ∧
    getKV (updateGoalStart st { id := "st0" }).info "status"
      ≠ some "Non-Theorem: no positive start clauses" := by
  refine ⟨by simp [startsE, hm, startsE.startsLoop], ?_⟩
  rcases hT : st.tableau with ⟨l, c, p, n, acts⟩
  have hres : updateGoalStart st { id := "st0" }
      = { st with
          tableau := STab.node l [] p (n + 1)
            (acts.filter fun pr => pr.1 ≠ "st0"),
          substitution := st.substitution.update [],
          proofSequence := st.proofSequence ++ [.start { id := "st0" }],
          info := setKV st.info "status" "Theorem",
          isTerminal := true,
          goalIsOpen := false } := by
    simp [updateGoalStart, hT, STab.delAction, STab.withActions,
      STab.actions, STab.bumpAttempts, STab.withChildren, theoremOrNext,
      STab.children, openLeavesL]
  rw [hres]
  refine ⟨rfl, getKV_setKV_self st.info "status" "Theorem", ?_⟩
  rw [getKV_setKV_self st.info "status" "Theorem"]
  simp

theorem claim_C5_witness :
    startsE ⟨[[⟨"p", [], none, true, none⟩]], 0⟩ true
      = .ok ([{ id := "st0" }], ⟨[[⟨"p", [], none, true, none⟩]], 0⟩) ∧
    (updateGoalStart
        ⟨⟨[[⟨"p", [], none, true, none⟩]], 0⟩, Sub.empty, STab.root,
          false, 1, [], false, [], ⟨true, false, 1, false, 2⟩⟩
        { id := "st0" }).isTerminal = true ∧
    getKV (updateGoalStart
        ⟨⟨[[⟨"p", [], none, true, none⟩]], 0⟩, Sub.empty, STab.root,
          false, 1, [], false, [], ⟨true, false, 1, false, 2⟩⟩
        { id := "st0" }).info "status" = some "Theorem" ∧
    getKV (updateGoalStart
        ⟨⟨[[⟨"p", [], none, true, none⟩]], 0⟩, Sub.empty, STab.root,
          false, 1, [], false, [], ⟨true, false, 1, false, 2⟩⟩
        { id := "st0" }).info "status"
      ≠ some "Non-Theorem: no positive start clauses" :=
  claim_C5_lone_empty_start_ends_as_theorem
    ⟨[[⟨"p", [], none, true, none⟩]], 0⟩
    ⟨⟨[[⟨"p", [], none, true, none⟩]], 0⟩, Sub.empty, STab.root,
      false, 1, [], false, [], ⟨true, false, 1, false, 2⟩⟩ rfl

/-- Closed form of the `starts()` loop: one `Start` per candidate, in
candidate order, with sequential ids from `j` and copy counters
ticking up from the current matrix index. -/
theorem startsLoop_spec : ∀ (cs : List Nat) (m : Matrix) (j : Nat),
    startsE.startsLoop m j cs
      = (cs.mapIdx fun k ci =>
          { id := "st" ++ toString (j + k),
            clauseCopy := some ((m.clauses.getD ci []).map
              (Lit.copy (m.index + k + 1))) },
         { m with index := m.index + cs.length }) := by
  intro cs
  induction cs with
  | nil => intro m j; simp [startsE.startsLoop]
  | cons ci rest ih =>
      intro m j
      simp only [startsE.startsLoop, Matrix.copy]
      rw [ih]
      simp only [List.mapIdx_cons, List.length_cons, Prod.mk.injEq,
        List.cons.injEq]
      refine ⟨⟨by simp, ?_⟩, ?_⟩
      · have hf : (fun k ci' =>
            ({ id := "st" ++ toString (j + 1 + k),
               clauseCopy := some ((m.clauses.getD ci' []).map
                 (Lit.copy (m.index + 1 + k + 1))) } : StartA))
            = fun k ci' =>
            ({ id := "st" ++ toString (j + (k + 1)),
               clauseCopy := some ((m.clauses.getD ci' []).map
                 (Lit.copy (m.index + (k + 1) + 1))) } : StartA) := by
          funext k ci'
          have h1 : j + 1 + k = j + (k + 1) := by omega
          have h2 : m.index + 1 + k + 1 = m.index + (k + 1) + 1 := by omega
          rw [h1, h2]
        simpa using congrArg (fun f => List.mapIdx f rest) hf
      · have h3 : m.index + 1 + rest.length = m.index + (rest.length + 1) := by
          omega
        rw [h3]

/-- C4 as the code actually behaves: with
`settings.positive_start_clauses` set, `starts()` produces exactly one
`Start` per positive clause, in matrix clause order, with sequential
ids and fresh clause copies; with the flag cleared it reads
`self.matrix.negative_clauses`, an attribute no class defines, so the
call raises `AttributeError` instead of enumerating all clauses. -/
theorem claim_C4_starts_per_candidate_or_attribute_error (m : Matrix) :
    startsE m false
      = .error
        "AttributeError: 'Matrix' object has no attribute 'negative_clauses'" ∧
    (m.positiveClauses ≠ [] →
      startsE m true
        = .ok (m.positiveClauses.mapIdx fun k ci =>
            { id := "st" ++ toString k,
              clauseCopy := some ((m.clauses.getD ci []).map
                (Lit.copy (m.index + k + 1))) },
          { m with index := m.index + m.positiveClauses.length })) := by
  refine ⟨rfl, fun hne => ?_⟩
  rw [startsE, if_pos rfl, startsLoop_spec]
  rcases hc : m.positiveClauses with _ | ⟨c0, cs⟩
  · exact absurd hc hne
  · simp [List.mapIdx_cons]

theorem claim_C4_witness :
    startsE ⟨[[⟨"p", [], none, false, none⟩]], 0⟩ false
      = .error
        "AttributeError: 'Matrix' object has no attribute 'negative_clauses'" ∧
    startsE ⟨[[⟨"p", [], none, false, none⟩]], 0⟩ true
      = .ok ((Matrix.positiveClauses ⟨[[⟨"p", [], none, false, none⟩]], 0⟩).mapIdx
          fun k ci =>
            { id := "st" ++ toString k,
              clauseCopy := some
                (((Matrix.clauses ⟨[[⟨"p", [], none, false, none⟩]], 0⟩).getD ci
                    []).map
                  (Lit.copy ((Matrix.index ⟨[[⟨"p", [], none, false, none⟩]], 0⟩)
                    + k + 1))) },
        { (⟨[[⟨"p", [], none, false, none⟩]], 0⟩ : Matrix) with
            index := (Matrix.index ⟨[[⟨"p", [], none, false, none⟩]], 0⟩)
              + (Matrix.positiveClauses
                  ⟨[[⟨"p", [], none, false, none⟩]], 0⟩).length }) :=
  ⟨(claim_C4_starts_per_candidate_or_attribute_error
      ⟨[[⟨"p", [], none, false, none⟩]], 0⟩).1,
   (claim_C4_starts_per_candidate_or_attribute_error
      ⟨[[⟨"p", [], none, false, none⟩]], 0⟩).2 (by decide)⟩

/-- C6 as the code actually behaves: `SATConnectionState.reset(depth)`
sets `max_depth` to the requested depth (falling back to the
configured initial depth), rebuilds a fresh root tableau whose
actions are the start actions, and clears `info`, `is_terminal` and
`proof_sequence` — but it neither reinitialises the substitution (its
parent map and trail are carried over unchanged) nor rezeroes the
matrix copy counter: the counter in fact *grows* by one per start
clause copied while rebuilding the root's actions. -/
theorem claim_C6_amended_reset_keeps_substitution_and_counter
    (st : SATState) (d : Option Nat) (st' : SATState)
    (h : SATState.reset st d = .ok st') :
    st'.maxDepth = d.getD st.settings.iterativeDeepeningInitialDepth ∧
    st'.info = [] ∧ st'.isTerminal = false ∧ st'.proofSequence = [] ∧
    st'.tableau.children = [] ∧ st'.tableau.proven = false ∧
    st'.tableau.numAttempted = 0 ∧
    st'.substitution = st.substitution ∧
    st'.matrix.clauses = st.matrix.clauses ∧
    st'.matrix.index = st.matrix.index + st.matrix.positiveClauses.length := by
  rcases hpsc : st.settings.positiveStartClauses with _ | _
  · rw [SATState.reset, hpsc] at h
    simp [startsE] at h
  · rw [SATState.reset, hpsc, startsE, if_pos rfl,
      startsLoop_spec] at h
    simp only [] at h
    rw [Except.ok.injEq] at h
    subst h
    refine ⟨rfl, rfl, rfl, rfl, ?_, ?_, ?_, rfl, rfl, ?_⟩ <;>
      simp [STab.root, STab.withActions, STab.children, STab.proven,
        STab.numAttempted]

theorem claim_C6_witness :
    (SATState.substitution
        ⟨⟨[[⟨"p", [], none, false, none⟩]], 6⟩,
          ⟨[(("X", 0), .func "f" [] none)], []⟩,
          .node none [] false 0
            [("st0", .start
              { id := "st0",
                clauseCopy := some [⟨"p", [], none, false, none⟩] })],
          true, 1, [], false, [], ⟨true, false, 1, false, 2⟩⟩)
      = SATState.substitution
        ⟨⟨[[⟨"p", [], none, false, none⟩]], 5⟩,
          ⟨[(("X", 0), .func "f" [] none)], []⟩, STab.root, false, 3,
          [("status", "s")], true, [], ⟨true, false, 1, false, 2⟩⟩ ∧
    Matrix.index (SATState.matrix
        ⟨⟨[[⟨"p", [], none, false, none⟩]], 6⟩,
          ⟨[(("X", 0), .func "f" [] none)], []⟩,
          .node none [] false 0
            [("st0", .start
              { id := "st0",
                clauseCopy := some [⟨"p", [], none, false, none⟩] })],
          true, 1, [], false, [], ⟨true, false, 1, false, 2⟩⟩) = 6 :=
  ⟨(claim_C6_amended_reset_keeps_substitution_and_counter
      ⟨⟨[[⟨"p", [], none, false, none⟩]], 5⟩,
        ⟨[(("X", 0), .func "f" [] none)], []⟩, STab.root, false, 3,
        [("status", "s")], true, [], ⟨true, false, 1, false, 2⟩⟩ none
      ⟨⟨[[⟨"p", [], none, false, none⟩]], 6⟩,
        ⟨[(("X", 0), .func "f" [] none)], []⟩,
        .node none [] false 0
          [("st0", .start
            { id := "st0",
              clauseCopy := some [⟨"p", [], none, false, none⟩] })],
        true, 1, [], false, [], ⟨true, false, 1, false, 2⟩⟩ rfl).2.2.2.2.2.2.2.1,
   (claim_C6_amended_reset_keeps_substitution_and_counter
      ⟨⟨[[⟨"p", [], none, false, none⟩]], 5⟩,
        ⟨[(("X", 0), .func "f" [] none)], []⟩, STab.root, false, 3,
        [("status", "s")], true, [], ⟨true, false, 1, false, 2⟩⟩ none
      ⟨⟨[[⟨"p", [], none, false, none⟩]], 6⟩,
        ⟨[(("X", 0), .func "f" [] none)], []⟩,
        .node none [] false 0
          [("st0", .start
            { id := "st0",
              clauseCopy := some [⟨"p", [], none, false, none⟩] })],
        true, 1, [], false, [], ⟨true, false, 1, false, 2⟩⟩ rfl).2.2.2.2.2.2.2.2.2⟩

/-- C6 counterexample: on a state whose substitution has a binding and
whose matrix counter stands at 5, `reset(None)` succeeds yet hands
back the substitution with its parent map intact and the matrix
counter at 6 — the claimed from-scratch substitution and rezeroed
counter are refuted. -/
theorem claim_C6_counterexample :
    ∃ st', SATState.reset
        ⟨⟨[[⟨"p", [], none, false, none⟩]], 5⟩,
          ⟨[(("X", 0), .func "f" [] none)], []⟩, STab.root, false, 3,
          [("status", "s")], true, [], ⟨true, false, 1, false, 2⟩⟩ none
      = .ok st' ∧ st'.substitution.parent ≠ [] ∧ st'.matrix.index ≠ 0 :=
  ⟨_, rfl, by decide, by decide⟩

/-! ## Clause copying introduces fresh variable identities (C3) -/

mutual

theorem varsT_copyT : ∀ (num : Nat) (t : PTerm),
    PTerm.varsT (PTerm.copyT num t)
      = (PTerm.varsT t).map fun p => (p.1, num)
  | _, .var _ _ => rfl
  | num, .func f as p => by
      show PTerm.varsT.varsList (PTerm.copyT.copyList num as)
          ++ PTerm.varsT.varsOpt (PTerm.copyT.copyOpt num p)
        = (PTerm.varsT.varsList as ++ PTerm.varsT.varsOpt p).map
            fun q => (q.1, num)
      rw [varsList_copyList num as, varsOpt_copyOpt num p, List.map_append]

theorem varsList_copyList : ∀ (num : Nat) (ts : List PTerm),
    PTerm.varsT.varsList (PTerm.copyT.copyList num ts)
      = (PTerm.varsT.varsList ts).map fun p => (p.1, num)
  | _, [] => rfl
  | num, t :: ts => by
      show PTerm.varsT (PTerm.copyT num t)
          ++ PTerm.varsT.varsList (PTerm.copyT.copyList num ts)
        = (PTerm.varsT t ++ PTerm.varsT.varsList ts).map
            fun q => (q.1, num)
      rw [varsT_copyT num t, varsList_copyList num ts, List.map_append]

theorem varsOpt_copyOpt : ∀ (num : Nat) (o : Option PTerm),
    PTerm.varsT.varsOpt (PTerm.copyT.copyOpt num o)
      = (PTerm.varsT.varsOpt o).map fun p => (p.1, num)
  | _, none => rfl
  | num, some t => varsT_copyT num t

end


theorem vars_copy_lit (num : Nat) (l : Lit) :
    (Lit.copy num l).vars = l.vars.map fun p => (p.1, num) := by
  simp only [Lit.copy, Lit.vars, varsList_copyList, varsOpt_copyOpt,
    List.map_append]

theorem clauseVars_copy (num : Nat) (c : List Lit) :
    clauseVars (c.map (Lit.copy num))
      = (clauseVars c).map fun p => (p.1, num) := by
  induction c with
  | nil => rfl
  | cons l ls ih =>
      simp only [clauseVars, List.map_cons, List.flatMap_cons,
        vars_copy_lit, List.map_append]
      rw [show (List.map (Lit.copy num) ls).flatMap Lit.vars
          = clauseVars (List.map (Lit.copy num) ls) from rfl, ih]
      rfl

/-- C3: `matrix.copy(i)` stamps every variable of the copied clause
with the fresh counter value `index + 1`, so — provided every
variable already in the matrix carries a copy number at most `index`,
as parsing (number 0) and the monotone counter maintain — the copy
shares no variable identity `(symbol, copy_num)` with the original
clauses, nor with any clause copy produced while the counter was
still below the current one; and two same-symbol occurrences inside
one copy are the identical variable. -/
theorem claim_C3_clause_copy_variables_are_fresh (m : Matrix) (i : Nat)
    (H : ∀ v ∈ matrixVars m, v.2 ≤ m.index) :
    (∀ v ∈ clauseVars (m.copy i).2, v.2 = m.index + 1) ∧
    (∀ v ∈ clauseVars (m.copy i).2, v ∉ matrixVars m) ∧
    (m.copy i).1.index = m.index + 1 ∧
    (∀ (m₀ : Matrix) (j : Nat), m₀.index + 1 ≤ m.index →
      ∀ v ∈ clauseVars (m.copy i).2, ∀ v₀ ∈ clauseVars (m₀.copy j).2,
        v ≠ v₀) ∧
    (∀ v ∈ clauseVars (m.copy i).2, ∀ v₂ ∈ clauseVars (m.copy i).2,
      v.1 = v₂.1 → v = v₂) := by
  have hsnd : ∀ (m₁ : Matrix) (i₁ : Nat),
      ∀ v ∈ clauseVars (m₁.copy i₁).2, v.2 = m₁.index + 1 := by
    intro m₁ i₁ v hv
    simp only [Matrix.copy, clauseVars_copy] at hv
    obtain ⟨p, _, rfl⟩ := List.mem_map.mp hv
    rfl
  refine ⟨hsnd m i, ?_, rfl, ?_, ?_⟩
  · intro v hv hmem
    have h1 := hsnd m i v hv
    have h2 := H v hmem
    omega
  · intro m₀ j hle v hv v₀ hv₀ he
    have h1 := hsnd m i v hv
    have h0 := hsnd m₀ j v₀ hv₀
    rw [he] at h1
    omega
  · intro v hv v₂ hv₂ hfst
    have h1 := hsnd m i v hv
    have h2 := hsnd m i v₂ hv₂
    exact Prod.ext hfst (h1.trans h2.symm)

theorem claim_C3_witness :
    (∀ v ∈ clauseVars ((⟨[[⟨"P", [.var "X" 0], none, false, none⟩]], 0⟩ :
        Matrix).copy 0).2, v.2 = 0 + 1) ∧
    (∀ v ∈ clauseVars ((⟨[[⟨"P", [.var "X" 0], none, false, none⟩]], 0⟩ :
        Matrix).copy 0).2,
      v ∉ matrixVars ⟨[[⟨"P", [.var "X" 0], none, false, none⟩]], 0⟩) ∧
    ((⟨[[⟨"P", [.var "X" 0], none, false, none⟩]], 0⟩ : Matrix).copy 0).1.index
      = 0 + 1 ∧
    (∀ (m₀ : Matrix) (j : Nat), m₀.index + 1 ≤ 0 →
      ∀ v ∈ clauseVars ((⟨[[⟨"P", [.var "X" 0], none, false, none⟩]], 0⟩ :
          Matrix).copy 0).2,
        ∀ v₀ ∈ clauseVars (m₀.copy j).2, v ≠ v₀) ∧
    (∀ v ∈ clauseVars ((⟨[[⟨"P", [.var "X" 0], none, false, none⟩]], 0⟩ :
        Matrix).copy 0).2,
      ∀ v₂ ∈ clauseVars ((⟨[[⟨"P", [.var "X" 0], none, false, none⟩]], 0⟩ :
          Matrix).copy 0).2, v.1 = v₂.1 → v = v₂) :=
  claim_C3_clause_copy_variables_are_fresh
    ⟨[[⟨"P", [.var "X" 0], none, false, none⟩]], 0⟩ 0 (by decide)

/-! ## Prefix unification for D (C7) -/

/-- C7 as the code actually behaves: D's `pre_unify` compares the
lengths of the *unflattened* input prefix lists — not of the
flattened sequences — and `zip` truncates the flattened sequences to
the shorter one before pairwise unification.  On success the input
lists have equal (unflattened) length and the truncating pairwise
unification of the flattened applied sequences succeeds; the caller's
substitution object only undergoes the key- and root-preserving
path-compression of the applications (`SubStepK`), the new bindings
landing in the returned copy. -/
theorem claim_C7_pre_unify_d_length_check_and_truncation
    (uf : Nat) (lp rp : List PTerm) (σ : Sub) :
    (lp.length ≠ rp.length →
      preUnifyD uf lp rp σ = none ∨ preUnifyD uf lp rp σ = some none) ∧
    (∀ σ', preUnifyD uf lp rp σ = some (some σ') →
      lp.length = rp.length ∧
      ∃ la ra σ₁ σ₂,
        applyListF uf σ lp = some (la, σ₁) ∧
        applyListF uf σ₁ rp = some (ra, σ₂) ∧
        SubStepK σ σ₂ ∧
        unifyPairs uf σ₂ ((flattenList la).zip (flattenList ra))
          = some (some σ')) := by
  constructor
  · intro hne
    rw [preUnifyD]
    cases h1 : applyListF uf σ lp with
    | none => exact Or.inl rfl
    | some p1 =>
        obtain ⟨la, σ₁⟩ := p1
        dsimp only
        cases h2 : applyListF uf σ₁ rp with
        | none => exact Or.inl rfl
        | some p2 =>
            obtain ⟨ra, σ₂⟩ := p2
            dsimp only
            rw [if_pos hne]
            exact Or.inr rfl
  · intro σ' h
    rw [preUnifyD] at h
    cases h1 : applyListF uf σ lp with
    | none => rw [h1] at h; exact absurd h (by simp)
    | some p1 =>
        obtain ⟨la, σ₁⟩ := p1
        rw [h1] at h
        dsimp only at h
        cases h2 : applyListF uf σ₁ rp with
        | none => rw [h2] at h; exact absurd h (by simp)
        | some p2 =>
            obtain ⟨ra, σ₂⟩ := p2
            rw [h2] at h
            dsimp only at h
            by_cases hlen : lp.length = rp.length
            · rw [if_neg (fun hn => hn hlen)] at h
              exact ⟨hlen, la, ra, σ₁, σ₂, rfl, h2,
                SubStepK_trans ((apply_substepK uf).2 σ lp la σ₁ h1)
                  ((apply_substepK uf).2 σ₁ rp ra σ₂ h2), h⟩
            · rw [if_pos hlen] at h
              exact absurd h (by simp)

theorem claim_C7_witness :
    (([PTerm.func "a" [] none] : List PTerm).length
        ≠ ([] : List PTerm).length →
      preUnifyD 20 [.func "a" [] none] [] Sub.empty = none ∨
      preUnifyD 20 [.func "a" [] none] [] Sub.empty = some none) ∧
    (([PTerm.func "a" [] none] : List PTerm).length
        = ([PTerm.func "a" [] none] : List PTerm).length ∧
      ∃ la ra σ₁ σ₂,
        applyListF 20 Sub.empty [PTerm.func "a" [] none] = some (la, σ₁) ∧
        applyListF 20 σ₁ [PTerm.func "a" [] none] = some (ra, σ₂) ∧
        SubStepK Sub.empty σ₂ ∧
        unifyPairs 20 σ₂ ((flattenList la).zip (flattenList ra))
          = some (some ⟨[], [[]]⟩)) :=
  ⟨(claim_C7_pre_unify_d_length_check_and_truncation 20
      [.func "a" [] none] [] Sub.empty).1,
   (claim_C7_pre_unify_d_length_check_and_truncation 20
      [.func "a" [] none] [.func "a" [] none] Sub.empty).2
      ⟨[], [[]]⟩ rfl⟩

/-- C7 counterexample: with the empty substitution,
`pre_unify([string(a, b)], [], [string(a)])` *succeeds* although the
flattened sequences of the two sides are `[a, b]` and `[a]`, of
different lengths: the length test compares the unflattened
single-element inputs (1 = 1) and `zip` silently drops `b`, refuting
"returns a substitution exactly when the flattened sequences of the
two sides have equal length and their elements unify pairwise". -/
theorem claim_C7_counterexample :
    applyListF 20 Sub.empty
        [.func "string" [.func "a" [] none, .func "b" [] none] none]
      = some ([.func "string" [.func "a" [] none, .func "b" [] none] none],
          Sub.empty) ∧
    applyListF 20 Sub.empty [.func "string" [.func "a" [] none] none]
      = some ([.func "string" [.func "a" [] none] none], Sub.empty) ∧
    (∃ σ', preUnifyD 20
        [.func "string" [.func "a" [] none, .func "b" [] none] none]
        [.func "string" [.func "a" [] none] none] Sub.empty
        = some (some σ')) ∧
    (flattenList
        [.func "string" [.func "a" [] none, .func "b" [] none] none]).length
      ≠ (flattenList [.func "string" [.func "a" [] none] none]).length :=
  ⟨rfl, rfl, ⟨_, rfl⟩, by decide⟩

/-! ## The intuitionistic shift case (C8) -/

theorem orTry_some_none : ∀ a : Option (Option Sub), orTry a (some none) = a
  | none => rfl
  | some none => rfl
  | some (some _) => rfl

theorem orTry_left_some_none (b : Option (Option Sub)) :
    orTry (some none) b = b := rfl

/-- C8 as the code actually behaves: on an applied and flattened
triple `(V∷u, m, X∷w)` that fires no earlier case, the final shift
case fires exactly when `V` is a variable, `V ≠ X`, and the source's
guard `(not u) or w or isinstance(X, Function)` — the *disjunction*
"`u` empty, or `w` non-empty, or `X` a function" — holds, in which
case `pre_unify` recurses on `(V∷u, m ++ [X], w)` and returns that
call's outcome; when the disjunction fails, the cascade falls off the
end and returns `None`. -/
theorem claim_C8_shift_guard_is_disjunction (uf counter : Nat)
    (recur : List PTerm → List PTerm → List PTerm → Sub → Nat →
      Option (Option Sub))
    (v x : PTerm) (u m w : List PTerm) (σ : Sub)
    (hprior : priorCasesApply (v :: u) m (x :: w) = false) :
    (shiftApplies (v :: u) (x :: w) = true →
      preUnifyCases uf recur (v :: u) m (x :: w) σ counter
        = recur (v :: u) (m ++ [x]) w σ counter) ∧
    (shiftApplies (v :: u) (x :: w) = false →
      preUnifyCases uf recur (v :: u) m (x :: w) σ counter = some none) := by
  have key : preUnifyCases uf recur (v :: u) m (x :: w) σ counter
      = if shiftApplies (v :: u) (x :: w) = true then
          recur (v :: u) (m ++ [x]) w σ counter
        else some none := by
    rcases v with ⟨vs, vc⟩ | ⟨vf, va, vp⟩ <;>
      rcases x with ⟨xs, xc⟩ | ⟨xf, xa, xp⟩ <;>
      rcases m with _ | ⟨m0, ms⟩ <;> rcases u with _ | ⟨u0, us⟩ <;>
      rcases w with _ | ⟨w0, ws⟩ <;>
      simp_all only [priorCasesApply, pcEmptyL, pcVarEq, pcFuncFunc,
        pcFuncVar, pcVarFunc, pcVarNilR, pcTwoFuncs, pcVarHat,
        preUnifyCases, shiftApplies, codeShiftGuard, PTerm.isVar,
        PTerm.isFunc, List.isEmpty_cons, List.isEmpty_nil,
        Bool.or_eq_false_iff, orTry_left_some_none, orTry_some_none] <;>
      simp_all [orTry_left_some_none, orTry_some_none]
  exact ⟨fun hs => by rw [key, if_pos hs],
    fun hs => by rw [key, if_neg (by simp [hs])]⟩

theorem claim_C8_witness :
    preUnifyCases 20 (fun _ _ _ _ _ => some none)
        [.var "V" 0] [] [.var "X" 0] Sub.empty 0
      = some none :=
  (claim_C8_shift_guard_is_disjunction 20 0 (fun _ _ _ _ _ => some none)
    (.var "V" 0) (.var "X" 0) [] [] [] Sub.empty (by decide)).1 (by decide)

/-- C8 counterexample: the flattened triple `([V], [], [X])` with
distinct prefix variables `V`, `X` fires no case before the shift,
and the specification's guard "`u` empty ⇒ `w` non-empty or `X` a
function" is false there (`u = w = []`, `X` a variable), so per the
claim `pre_unify` would return `None` — yet the run succeeds, because
the code's guard `(not u) or w or isinstance(X, Function)` is true
when `u` is empty: the shift moves `X` into the middle list and the
`([V], [X], [])` case then binds `V ↦ string(X)`. -/
theorem claim_C8_counterexample :
    priorCasesApply [.var "V" 0] [] [.var "X" 0] = false ∧
    claimedShiftGuard [] (.var "X" 0) [] = false ∧
    (∃ σ', preUnifyI 20 20 [.var "V" 0] [] [.var "X" 0] Sub.empty 0
        = some (some σ')) :=
  ⟨by decide, by decide, ⟨_, rfl⟩⟩

end Connections
